import Mathlib

set_option autoImplicit false

/- Verification of the Brackets virtual-filesystem core
   (src/src/filesystem/FileSystem.js).

   Paths are modelled as lists of characters, so that the JavaScript string
   operations used by the source (regex collapse of duplicated slashes,
   split/join on "/", the ".." splice loop) can be translated operation by
   operation and reasoned about by structural induction. -/

abbrev FsPath := List Char

deriving instance DecidableEq for Except

/-- Error kinds surfaced by the core.  The source throws `Error` objects with
messages "Paths must be absolute: ..." and "Invalid absolute path: ..."; the
spec names these `AbsolutePathRequired` and `InvalidPath`.  `typeError` marks
the JavaScript TypeError that `_handleDirectoryChange` raises when
`getContents` fails (src 659-660 reads `contents.filter` off an undefined
`contents`). -/
inductive FsError where
  | absolutePathRequired
  | invalidPath
  | typeError
deriving DecidableEq

/-- `FileSystem.isAbsolutePath` (src 403-405):
`fullPath[0] === "/" || fullPath[1] === ":"`. -/
def isAbsolutePath (p : FsPath) : Bool :=
  p.head? == some '/' || p[1]? == some ':'

/-- `path.replace(_DUPLICATED_SLASH_RE, "/")` (src 437) where the regex
`/\/{2,}/g` matches maximal runs of two or more forward slashes: every such
run is collapsed to a single slash.  Translated as a left-to-right scan that
drops a slash whenever it is followed by another slash. -/
def collapseSlashes : FsPath → FsPath
  | [] => []
  | [c] => [c]
  | c :: d :: rest =>
    if c == '/' && d == '/' then collapseSlashes (d :: rest)
    else c :: collapseSlashes (d :: rest)

/-- `path.indexOf("..") !== -1` (src 440): the two-character substring test. -/
def containsDotDot : FsPath → Bool
  | [] => false
  | [_] => false
  | c :: d :: rest => (c == '.' && d == '.') || containsDotDot (d :: rest)

/-- `path.search(_DUPLICATED_SLASH_RE) === 0` (src 434): the first run of two
or more slashes starts at index 0, i.e. the path begins with "//". -/
def startsWithDoubleSlash : FsPath → Bool
  | '/' :: '/' :: _ => true
  | _ => false

/-- `path.split("/")` (src 441).  JavaScript's split on a single-character
separator: `"".split("/") == [""]`, `"/".split("/") == ["", ""]`. -/
def splitOnSlash : FsPath → List FsPath
  | [] => [[]]
  | c :: rest =>
    if c == '/' then [] :: splitOnSlash rest
    else
      match splitOnSlash rest with
      | [] => [[c]]
      | s :: ss => (c :: s) :: ss

/-- `segments.join("/")` (src 452). -/
def joinSlash : List FsPath → FsPath
  | [] => []
  | [s] => s
  | s :: ss => s ++ '/' :: joinSlash ss

/-- The two-character segment `".."`. -/
def dotdot : FsPath := ['.', '.']

/-- The `..`-removal loop of `_normalizePath` (src 443-451):

    for (i = 1; i < segments.length; i++) {
        if (segments[i] === "..") {
            if (i < 2) { throw new Error("Invalid absolute path ..."); }
            segments.splice(i - 1, 2);
            i -= 2; // compensate so we start on the right index next iteration
        }
    }

`segs.take (i-1) ++ segs.drop (i+1)` is `segments.splice(i - 1, 2)`, and the
next examined index after a splice is `i - 1` (the `i -= 2` followed by the
loop increment). -/
def spliceLoop (segs : List FsPath) (i : Nat) : Except FsError (List FsPath) :=
  match h : segs[i]? with
  | none => .ok segs
  | some s =>
    if s = dotdot then
      if i < 2 then .error .invalidPath
      else spliceLoop (segs.take (i - 1) ++ segs.drop (i + 1)) (i - 1)
    else spliceLoop segs (i + 1)
termination_by segs.length - i
decreasing_by
  · have hi : i < segs.length := by
      by_contra hge
      simp [List.getElem?_eq_none (Nat.le_of_not_lt hge)] at h
    simp [List.length_take, List.length_drop]
    omega
  · have hi : i < segs.length := by
      by_contra hge
      simp [List.getElem?_eq_none (Nat.le_of_not_lt hge)] at h
    omega

/-- Stack form of the splice loop, used both to reason about `spliceLoop` and
to evaluate it (the well-founded recursion of `spliceLoop` does not reduce in
the kernel).  `acc` is the already-scanned prefix of the segment array in
reverse order (its head is `segments[i-1]`, its last element is
`segments[0]`), and the argument list is the un-scanned suffix from index `i`
on.  `spliceLoop_eq_resolveStack` below proves the correspondence. -/
def resolveStack (acc : List FsPath) : List FsPath → Except FsError (List FsPath)
  | [] => .ok acc.reverse
  | s :: rest =>
    if s = dotdot then
      if acc.length < 2 then .error .invalidPath
      else resolveStack acc.tail rest
    else resolveStack (s :: acc) rest

/-- `_appendTrailingSlash` (src 407-413). -/
def appendTrailingSlash (p : FsPath) : FsPath :=
  if p.getLast? == some '/' then p else p ++ ['/']

/-- `FileSystem.prototype._normalizePath` (src 428-466).  `normalizeUNCPaths`
is the backend capability `this._impl.normalizeUNCPaths`. -/
def normalizePath (normalizeUNCPaths : Bool) (path : FsPath) (isDirectory : Bool) :
    Except FsError FsPath :=
  if isAbsolutePath path then
    let isUNCPath := normalizeUNCPaths && startsWithDoubleSlash path
    let collapsed := collapseSlashes path
    match
      (if containsDotDot collapsed then (spliceLoop (splitOnSlash collapsed) 1).map joinSlash
       else .ok collapsed) with
    | .error e => .error e
    | .ok resolved =>
      let withSlash := if isDirectory then appendTrailingSlash resolved else resolved
      .ok (if isUNCPath then '/' :: withSlash else withSlash)
  else .error .absolutePathRequired

/-- Executable mirror of `normalizePath`: the `..` scan is performed by
`resolveStack` instead of the index-based `spliceLoop`.
`normalizePath_eq_exec` proves the two agree; concrete evaluations go through
this form because `spliceLoop`'s well-founded recursion does not reduce. -/
def normalizePathExec (normalizeUNCPaths : Bool) (path : FsPath) (isDirectory : Bool) :
    Except FsError FsPath :=
  if isAbsolutePath path then
    let isUNCPath := normalizeUNCPaths && startsWithDoubleSlash path
    let collapsed := collapseSlashes path
    match
      (if containsDotDot collapsed then
        (match splitOnSlash collapsed with
         | [] => Except.ok []
         | s0 :: rest => (resolveStack [s0] rest).map joinSlash)
       else .ok collapsed) with
    | .error e => .error e
    | .ok resolved =>
      let withSlash := if isDirectory then appendTrailingSlash resolved else resolved
      .ok (if isUNCPath then '/' :: withSlash else withSlash)
  else .error .absolutePathRequired

/-- A path with no two adjacent forward slashes (the image of
`collapseSlashes`); used to state what canonical paths look like. -/
def dupFree : FsPath → Bool
  | [] => true
  | [_] => true
  | c :: d :: rest => !(c == '/' && d == '/') && dupFree (d :: rest)

/-- The `..`-removal step of `_normalizePath` (src 440-453) in isolation:
applied to the slash-collapsed path. -/
def resolveStep (q : FsPath) : Except FsError FsPath :=
  if containsDotDot q then (spliceLoop (splitOnSlash q) 1).map joinSlash
  else .ok q

/-- Snapshot of file metadata.  Only the modification time matters to the
modelled fragment: `_handleExternalChange` compares stats by
`stat.mtime.getTime()` (src 734). -/
structure FileSystemStats where
  mtime : Nat
deriving DecidableEq

/-- A File or Directory entry.  `id` models JavaScript object identity (a
fresh id is allocated whenever an entry constructor runs); `isFile` records
which constructor built the entry; `stat` and `contents` are the `_stat` and
`_contents` caches.  Modelled from the spec for the parts living in
File.js/Directory.js/FileSystemEntry.js, which are not under src/: an entry
carries its canonical `fullPath`, a cached stat, and (directories only)
cached contents, stored here as the ids of the child entries. -/
structure Entry where
  id : Nat
  fullPath : FsPath
  isFile : Bool
  stat : Option FileSystemStats
  contents : Option (List Nat)
deriving DecidableEq

/-- Modelled from the spec: `FileSystemEntry.name` is the last path segment
(for a directory, the segment before the trailing slash). -/
def Entry.name (e : Entry) : FsPath :=
  ((splitOnSlash (if e.fullPath.getLast? == some '/' then e.fullPath.dropLast
    else e.fullPath)).getLast?).getD []

/-- Modelled from the spec: `FileSystemEntry.parentPath` is the canonical
path of the parent directory. -/
def Entry.parentPath (e : Entry) : FsPath :=
  let core := if e.fullPath.getLast? == some '/' then e.fullPath.dropLast else e.fullPath
  core.take (core.length - e.name.length)

/-- Modelled from the spec: `FileSystemEntry._clearCachedData` clears the
cached stat and the cached contents. -/
def clearCachedData (e : Entry) : Entry :=
  {e with stat := none, contents := none}

/-- A `_watchedRoots` value (src 188-194, 761-767): `{entry, filter, active}`,
where `filter(name, parentPath)` decides whether a child is watched. -/
structure WatchedRoot where
  entry : Entry
  filter : FsPath → FsPath → Bool
  active : Bool

/-- A queued watch/unwatch request (src 143-147): `{fn, cb}`.  In the model a
request carries an identifying number and whether its user callback throws
when applied (src 156-166 guards the pop with try/finally). -/
structure WatchRequest where
  id : Nat
  cbThrows : Bool
deriving DecidableEq

/-- A queued external change (src 113-118): `{path: ?string, stat:=}`. -/
structure ExternalChange where
  path : Option FsPath
  stat : Option FileSystemStats
deriving DecidableEq

/-- An event fired on the FileSystem (src 607-628): `change(entry, added,
removed)` — entry is none for a wholesale change, and added/removed are only
present for directory changes — or `rename(oldPath, newPath)`.  Entries are
referenced by id. -/
inductive FSEvent where
  | change (entry : Option Nat) (added removed : Option (List Nat))
  | rename (oldPath newPath : FsPath)
deriving DecidableEq

/-- The low-level impl consumed by the core (spec section 6), restricted to a
synchronous backend: each operation invokes its callback with the returned
value before the call returns.  The modelled fragment covers backends that
declare `recursiveWatch` (the non-recursive branch of `_watchOrUnwatchEntry`,
src 248-290, enumerates subdirectories through `Directory.visit`, which is
not under src/).  `watchPath`/`unwatchPath` yield the error, if any, passed
to their callbacks; `readdir` yields (name, isFile, mtime) triples. -/
structure Impl where
  normalizeUNCPaths : Bool
  watchPath : FsPath → Option String
  unwatchPath : FsPath → Option String
  readdir : FsPath → Except String (List (FsPath × Bool × Nat))

/-- The core state of a FileSystem object (src 78-90): the file index, the
watched-root registry (an insertion-ordered association list, mirroring a
JavaScript object's string-keyed property order), the watch-request queue,
the queue of deferred external changes and the active-change refcount.
`nextId` allocates JavaScript object identities; `events` logs the fired
change/rename events. -/
structure FileSystem where
  impl : Impl
  index : List Entry
  watchedRoots : List (FsPath × WatchedRoot)
  watchRequests : List WatchRequest
  externalChanges : List ExternalChange
  activeChangeCount : Int
  nextId : Nat
  events : List FSEvent

/-- Modelled from the spec (FileIndex.js is not under src/): exact lookup in
the canonical-path → entry mapping. -/
def FileSystem.getEntry (fs : FileSystem) (p : FsPath) : Option Entry :=
  fs.index.find? (fun e => e.fullPath == p)

/-- Lookup by JavaScript object identity. -/
def FileSystem.findEntryById (fs : FileSystem) (i : Nat) : Option Entry :=
  fs.index.find? (fun e => e.id == i)

/-- In-place mutation of the entry with the given identity (JavaScript
mutates the shared entry object). -/
def FileSystem.updateEntryById (fs : FileSystem) (i : Nat) (f : Entry → Entry) : FileSystem :=
  {fs with index := fs.index.map (fun e => if e.id == i then f e else e)}

/-- `FileSystem.prototype._getEntryForPath` (src 480-491).  `isDirectory`
stands for `EntryConstructor === Directory`; a freshly constructed entry
records which constructor built it in `isFile`. -/
def FileSystem.getEntryForPath (fs : FileSystem) (isDirectory : Bool) (path : FsPath) :
    Except FsError (FileSystem × Entry) :=
  match normalizePath fs.impl.normalizeUNCPaths path isDirectory with
  | .error e => .error e
  | .ok np =>
    match fs.getEntry np with
    | some entry => .ok (fs, entry)
    | none =>
      let entry : Entry := ⟨fs.nextId, np, !isDirectory, none, none⟩
      .ok ({fs with index := fs.index ++ [entry], nextId := fs.nextId + 1}, entry)

/-- `FileSystem.prototype.getFileForPath` (src 500-502). -/
def FileSystem.getFileForPath (fs : FileSystem) (path : FsPath) :
    Except FsError (FileSystem × Entry) :=
  fs.getEntryForPath false path

/-- `FileSystem.prototype.getDirectoryForPath` (src 511-513). -/
def FileSystem.getDirectoryForPath (fs : FileSystem) (path : FsPath) :
    Except FsError (FileSystem × Entry) :=
  fs.getEntryForPath true path

/-- `FileSystem.prototype._findWatchedRootForPath` (src 204-215): the first
watched root, in registry key order, whose path is a (non-strict) prefix of
`fullPath` — `fullPath.indexOf(watchedPath) === 0`. -/
def FileSystem.findWatchedRootForPath (fs : FileSystem) (fullPath : FsPath) :
    Option WatchedRoot :=
  (fs.watchedRoots.find? (fun kv => kv.1.isPrefixOf fullPath)).map (fun kv => kv.2)

/-- `this._watchedRoots[fullPath] = watchedRoot` (src 789): assignment to a
JavaScript object keeps an existing key at its original position. -/
def insertWatchedRoot (roots : List (FsPath × WatchedRoot)) (p : FsPath) (wr : WatchedRoot) :
    List (FsPath × WatchedRoot) :=
  if roots.any (fun kv => kv.1 == p) then
    roots.map (fun kv => if kv.1 == p then (kv.1, wr) else kv)
  else roots ++ [(p, wr)]

/-- `delete this._watchedRoots[fullPath]` (src 794, 828). -/
def removeWatchedRoot (roots : List (FsPath × WatchedRoot)) (p : FsPath) :
    List (FsPath × WatchedRoot) :=
  roots.filter (fun kv => !(kv.1 == p))

/-- `watchedRoot.active = b` on the registry's stored object. -/
def setRootActive (fs : FileSystem) (p : FsPath) (b : Bool) : FileSystem :=
  let roots := fs.watchedRoots.map
    (fun kv => if kv.1 == p then (kv.1, {kv.2 with active := b}) else kv)
  {fs with watchedRoots := roots}

/-- `this._watchedRoots[fullPath]` — exact-key lookup (src 816). -/
def FileSystem.lookupWatchedRoot (fs : FileSystem) (p : FsPath) : Option WatchedRoot :=
  (fs.watchedRoots.find? (fun kv => kv.1 == p)).map (fun kv => kv.2)

/-- The error strings of watch/unwatch (src 773, 785, 821). -/
def parentAlreadyWatchedMsg : String := "A parent of this root is already watched"

def childAlreadyWatchedMsg : String := "A child of this root is already watched"

def rootNotWatchedMsg : String := "Root is not watched."

/-- `FileSystem.prototype._watchOrUnwatchEntry` (src 230-291) for a
`recursiveWatch` backend with a synchronous impl: watching or unwatching a
child of the watched root is a no-op (src 236-240); the root itself goes
through the serial watch-request queue to `impl.watchPath`/`impl.unwatchPath`
(src 243-247).  With a synchronous backend the request completes before
`_enqueueWatchRequest` returns, leaving the queue empty again; the queue's
own step-by-step behaviour is modelled separately by `wqStep`. -/
def FileSystem.watchOrUnwatchEntry (fs : FileSystem) (entry : Entry)
    (watchedRoot : WatchedRoot) (shouldWatch : Bool) : FileSystem × Option String :=
  if entry.id == watchedRoot.entry.id then
    (fs, if shouldWatch then fs.impl.watchPath entry.fullPath
      else fs.impl.unwatchPath entry.fullPath)
  else (fs, none)

/-- `FileSystem.prototype._watchEntry` (src 303-305). -/
def FileSystem.watchEntry (fs : FileSystem) (entry : Entry)
    (watchedRoot : WatchedRoot) : FileSystem × Option String :=
  fs.watchOrUnwatchEntry entry watchedRoot true

/-- `FileSystem.prototype._unwatchEntry` (src 317-329): once the backend
unwatch completes, cached data is cleared on every indexed entry whose path
begins with the unwatched path, and the callback receives the backend
error. -/
def FileSystem.unwatchEntry (fs : FileSystem) (entry : Entry)
    (watchedRoot : WatchedRoot) : FileSystem × Option String :=
  let res := fs.watchOrUnwatchEntry entry watchedRoot false
  let idx := res.1.index.map
    (fun child => if entry.fullPath.isPrefixOf child.fullPath then clearCachedData child
      else child)
  ({res.1 with index := idx}, res.2)

/-- `FileSystem.prototype.watch` (src 761-803) with a synchronous backend.
The child-root check (src 777-787) computes `watchingChildRoot` as the
*Boolean* returned by `Array.prototype.some`, and the guard then reads
`.active` off that Boolean — `undefined` in JavaScript — so the
`childAlreadyWatchedMsg` branch can never be taken.  The Boolean is kept here
(unused) to mirror the source. -/
def FileSystem.watch (fs : FileSystem) (entry : Entry) (filter : FsPath → FsPath → Bool) :
    FileSystem × Option String :=
  let fullPath := entry.fullPath
  let watchedRoot : WatchedRoot := ⟨entry, filter, false⟩
  let watchingParentRoot := fs.findWatchedRootForPath fullPath
  if (watchingParentRoot.map (fun wr => wr.active)).getD false then
    (fs, some parentAlreadyWatchedMsg)
  else
    let _watchingChildRoot : Bool :=
      fs.watchedRoots.any (fun kv => fullPath.isPrefixOf kv.2.entry.fullPath)
    let fs1 := {fs with watchedRoots := insertWatchedRoot fs.watchedRoots fullPath watchedRoot}
    let res := fs1.watchEntry entry watchedRoot
    match res.2 with
    | some e =>
      ({res.1 with watchedRoots := removeWatchedRoot res.1.watchedRoots fullPath}, some e)
    | none => (setRootActive res.1 fullPath true, none)

/-- `FileSystem.prototype.unwatch` (src 814-844) with a synchronous backend:
the root is removed from the registry and every indexed entry under it is
removed from the index regardless of the backend unwatch result, which is
then surfaced to the callback. -/
def FileSystem.unwatch (fs : FileSystem) (entry : Entry) : FileSystem × Option String :=
  let fullPath := entry.fullPath
  match fs.lookupWatchedRoot fullPath with
  | none => (fs, some rootNotWatchedMsg)
  | some watchedRoot =>
    let fs1 := setRootActive fs fullPath false
    let res := fs1.unwatchEntry entry {watchedRoot with active := false}
    let fs2 := {res.1 with watchedRoots := removeWatchedRoot res.1.watchedRoots fullPath}
    let idx := fs2.index.filter (fun child => !(entry.fullPath.isPrefixOf child.fullPath))
    ({fs2 with index := idx}, res.2)

/-- `FileSystem.prototype.close` (src 350-353): `this._impl.unwatchAll()` (an
effect on the backend, outside the core state) and `this._index.clear()`. -/
def FileSystem.close (fs : FileSystem) : FileSystem :=
  {fs with index := []}

/-- `FileSystem.prototype._beginChange` (src 379-382). -/
def FileSystem.beginChange (fs : FileSystem) : FileSystem :=
  {fs with activeChangeCount := fs.activeChangeCount + 1}

/-- `FileSystem.prototype._fireChangeEvent` (src 626-628). -/
def fireChangeEvent (fs : FileSystem) (entry : Option Nat)
    (added removed : Option (List Nat)) : FileSystem :=
  {fs with events := fs.events ++ [FSEvent.change entry added removed]}

/-- `FileSystem.prototype._indexFilter` (src 366-377). -/
def FileSystem.indexFilter (fs : FileSystem) (path name : FsPath) : Bool :=
  match fs.findWatchedRootForPath path with
  | some parentRoot => parentRoot.filter name path
  | none => true

/-- Modelled from the spec: intern a child entry discovered during directory
enumeration (Directory.js is not under src/).  An existing entry at the path
is reused; otherwise a new entry is created with a fresh identity. -/
def FileSystem.internChild (fs : FileSystem) (childPath : FsPath) (isFile : Bool) :
    FileSystem × Entry :=
  match fs.getEntry childPath with
  | some e => (fs, e)
  | none =>
    let e : Entry := ⟨fs.nextId, childPath, isFile, none, none⟩
    ({fs with index := fs.index ++ [e], nextId := fs.nextId + 1}, e)

/-- Modelled from the spec: `Directory.getContents` (Directory.js is not
under src/).  Children are read through the backend readdir; a child is kept
iff the index filter (src 366-377, spec 4.10) accepts it; kept children are
interned and their id list is cached on the directory.  Call sites in the
modelled fragment always clear the directory's cache first (src 658), so the
cached-contents fast path is omitted. -/
def FileSystem.getContents (fs : FileSystem) (dir : Entry) :
    Except String (FileSystem × List Entry) :=
  match fs.impl.readdir dir.fullPath with
  | .error e => .error e
  | .ok items =>
    let step := fun (acc : FileSystem × List Entry) (item : FsPath × Bool × Nat) =>
      let childPath := dir.fullPath ++ item.1 ++ (if item.2.1 then [] else ['/'])
      if acc.1.indexFilter childPath item.1 then
        let res := acc.1.internChild childPath item.2.1
        (res.1, acc.2 ++ [res.2])
      else acc
    let res := items.foldl step (fs, [])
    .ok (res.1.updateEntryById dir.id
      (fun e => {e with contents := some (res.2.map (fun c => c.id))}), res.2)

/-- The manual cache-clearing pass over removed children of an unwatched
directory (src 672-678). -/
def FileSystem.clearRemovedChildren (fs : FileSystem) (removedIds : List Nat) : FileSystem :=
  removedIds.foldl (fun s i =>
    match s.findEntryById i with
    | some removed =>
      let idx := s.index.map (fun e =>
        if removed.fullPath.isPrefixOf e.fullPath then clearCachedData e else e)
      {s with index := idx}
    | none => s) fs

/-- `FileSystem.prototype._handleDirectoryChange` (src 655-704) with a
synchronous backend: reload the directory contents, diff old and new children
by object identity, then either clear caches under the removed children (for
a directory outside any watched root's filter) or watch/unwatch the
added/removed children, and hand the change sets to the continuation.  On a
`getContents` error the JavaScript callback dereferences an undefined
`contents` (src 659-660), modelled as `typeError`. -/
def FileSystem.handleDirectoryChange (fs : FileSystem) (directory : Entry) :
    Except FsError (FileSystem × List Nat × List Nat) :=
  let oldContents := directory.contents.getD []
  let fs1 := fs.updateEntryById directory.id clearCachedData
  match fs1.getContents (clearCachedData directory) with
  | .error _ => .error .typeError
  | .ok (fs2, contents) =>
    let contentIds := contents.map (fun e => e.id)
    let addedEntries := contentIds.filter (fun i => !(oldContents.contains i))
    let removedEntries := oldContents.filter (fun i => !(contentIds.contains i))
    match fs2.findWatchedRootForPath directory.fullPath with
    | none => .ok (fs2.clearRemovedChildren removedEntries, addedEntries, removedEntries)
    | some watchedRoot =>
      if watchedRoot.filter directory.name directory.parentPath then
        let fs3 := addedEntries.foldl (fun s i =>
          match FileSystem.findEntryById s i with
          | some e => (s.watchEntry e watchedRoot).1
          | none => s) fs2
        let fs4 := removedEntries.foldl (fun s i =>
          match FileSystem.findEntryById s i with
          | some e => (s.unwatchEntry e watchedRoot).1
          | none => s) fs3
        .ok (fs4, addedEntries, removedEntries)
      else .ok (fs2.clearRemovedChildren removedEntries, addedEntries, removedEntries)

/-- `FileSystem.prototype._handleExternalChange` (src 715-747) with a
synchronous backend.  A null path is a wholesale change: clear every cache
and fire `change(null)`.  Otherwise the path is normalized as a file and
looked up; unknown paths are dropped; a file entry fires a change unless the
provided stat matches the cached stat by mtime; a directory entry goes
through `_handleDirectoryChange`, adopts the provided stat and fires a change
with the added/removed sets. -/
def FileSystem.handleExternalChange (fs : FileSystem) (path? : Option FsPath)
    (stat : Option FileSystemStats) : Except FsError FileSystem :=
  match path? with
  | none =>
    let fs1 := {fs with index := fs.index.map clearCachedData}
    .ok (fireChangeEvent fs1 none none none)
  | some path =>
    match normalizePath fs.impl.normalizeUNCPaths path false with
    | .error e => .error e
    | .ok np =>
      match fs.getEntry np with
      | none => .ok fs
      | some entry =>
        if entry.isFile then
          if (match stat, entry.stat with
              | some st, some est => st.mtime == est.mtime
              | _, _ => false) then .ok fs
          else
            let fs1 := fs.updateEntryById entry.id
              (fun e => {clearCachedData e with stat := stat})
            .ok (fireChangeEvent fs1 (some entry.id) none none)
        else
          match fs.handleDirectoryChange entry with
          | .error e => .error e
          | .ok (fs1, added, removed) =>
            let fs2 := fs1.updateEntryById entry.id (fun e => {e with stat := stat})
            .ok (fireChangeEvent fs2 (some entry.id) (some added) (some removed))

/-- The `forEach` body of `_triggerExternalChangesNow` (src 121-126): process
the queued changes in order; a normalization exception aborts the iteration
(and the partially mutated state is not recorded by the model beyond the
raised error). -/
def triggerLoop : FileSystem → List ExternalChange → Except FsError FileSystem
  | fs, [] => .ok fs
  | fs, c :: rest =>
    match fs.handleExternalChange c.path c.stat with
    | .error e => .error e
    | .ok fs1 => triggerLoop fs1 rest

/-- `FileSystem.prototype._triggerExternalChangesNow` (src 121-126): apply
`_handleExternalChange` to each queued element in order, then empty the
queue (`this._externalChanges.length = 0`). -/
def FileSystem.triggerExternalChangesNow (fs : FileSystem) : Except FsError FileSystem :=
  (triggerLoop fs fs.externalChanges).map (fun fs1 => {fs1 with externalChanges := []})

/-- `FileSystem.prototype._enqueueExternalChange` (src 135-140): push the
change; if `_activeChangeCount` is zero, drain immediately. -/
def FileSystem.enqueueExternalChange (fs : FileSystem) (path? : Option FsPath)
    (stat : Option FileSystemStats) : Except FsError FileSystem :=
  let fs1 := {fs with externalChanges := fs.externalChanges ++ [⟨path?, stat⟩]}
  if fs1.activeChangeCount == 0 then fs1.triggerExternalChangesNow else .ok fs1

/-- `FileSystem.prototype._endChange` (src 384-395): decrement the refcount
(a negative value is only logged), and drain the queue exactly when the
count is zero — `if (!this._activeChangeCount)`. -/
def FileSystem.endChange (fs : FileSystem) : Except FsError FileSystem :=
  let fs1 := {fs with activeChangeCount := fs.activeChangeCount - 1}
  if fs1.activeChangeCount == 0 then fs1.triggerExternalChangesNow else .ok fs1

/-- An externally observable event of the watch-request queue (src 152-185):
`enqueue r` is a call to `_enqueueWatchRequest`; `complete` is the backend
finishing the in-flight head's call, which runs the continuation passed by
`_dequeueWatchRequest`. -/
inductive WQEvent where
  | enqueue (r : WatchRequest)
  | complete

/-- State of the serial watch-request queue: the pending requests — the head
is the one in flight when `headDispatched` — and the ids of the user
callbacks applied so far, in application order. -/
structure WQState where
  queue : List WatchRequest
  headDispatched : Bool
  invoked : List Nat
deriving DecidableEq

/-- One step of the watch-request queue (src 152-185).  On `enqueue`, the
request is pushed and, exactly when the queue was previously empty
(`this._watchRequests.length === 1` after the push, src 182), the head's
work function is dispatched.  On `complete`, the head's user callback is
applied — recorded in `invoked` whether or not the callback throws, because
the try/finally at src 159-165 pops the head and dispatches the next request
even when `request.cb` throws — and the next request, if any, is dispatched
by the recursive `_dequeueWatchRequest` call. -/
def wqStep (s : WQState) : WQEvent → WQState
  | .enqueue r =>
    {s with queue := s.queue ++ [r], headDispatched := s.headDispatched || s.queue.isEmpty}
  | .complete =>
    match s.queue with
    | [] => s
    | r :: rest =>
      {queue := rest, headDispatched := !rest.isEmpty, invoked := s.invoked ++ [r.id]}

/-- The initial queue state (src 86). -/
def wqInit : WQState := ⟨[], false, []⟩

/-- Run a trace of queue events from the initial state. -/
def wqRun (tr : List WQEvent) : WQState := tr.foldl wqStep wqInit

/-- The ids submitted by the enqueue events of a trace, in submission
order. -/
def wqEnqueued : List WQEvent → List Nat
  | [] => []
  | .enqueue r :: tr => r.id :: wqEnqueued tr
  | .complete :: tr => wqEnqueued tr

/-- Executable mirror of `_getEntryForPath` (normalization via
`normalizePathExec`); `getEntryForPath_eq_exec` proves agreement. -/
def FileSystem.getEntryForPathExec (fs : FileSystem) (isDirectory : Bool) (path : FsPath) :
    Except FsError (FileSystem × Entry) :=
  match normalizePathExec fs.impl.normalizeUNCPaths path isDirectory with
  | .error e => .error e
  | .ok np =>
    match fs.getEntry np with
    | some entry => .ok (fs, entry)
    | none =>
      let entry : Entry := ⟨fs.nextId, np, !isDirectory, none, none⟩
      .ok ({fs with index := fs.index ++ [entry], nextId := fs.nextId + 1}, entry)

/-- A trivial synchronous backend: all watch/unwatch operations succeed and
all directories read as empty.  Used by the concrete scenarios. -/
def implOk : Impl := ⟨false, fun _ => none, fun _ => none, fun _ => .ok []⟩

/-- A synchronous backend whose unwatch always fails with "EIO"; exercises
the fail-forward path of `unwatch`. -/
def implUnwatchFail : Impl := ⟨false, fun _ => none, fun _ => some "EIO", fun _ => .ok []⟩

/-- A fresh FileSystem over the given backend (the constructor, src 78-90). -/
def mkFileSystem (impl : Impl) : FileSystem := ⟨impl, [], [], [], [], 0, 0, []⟩

/-- The always-true include filter used by the concrete scenarios. -/
def trueFilter : FsPath → FsPath → Bool := fun _ _ => true

/-- Concrete entries for the scenarios. -/
def projDirEntry : Entry := ⟨0, "/proj/".toList, false, none, none⟩

def rootDirEntry : Entry := ⟨1, "/".toList, false, none, none⟩

def dirAEntry : Entry := ⟨0, "/a/".toList, false, none, none⟩

def fileEntryF : Entry := ⟨0, "/p/f.txt".toList, true, none, none⟩

def rootREntry : Entry := ⟨0, "/r/".toList, false, none, none⟩

def childEntryR : Entry := ⟨1, "/r/a.txt".toList, true, none, none⟩

def outsideEntry : Entry := ⟨2, "/x/b.txt".toList, true, none, none⟩

/-- Scenario state for the watched-root overlap claims: "/proj/" and "/" are
both indexed. -/
def fsOverlap : FileSystem := {mkFileSystem implOk with index := [projDirEntry, rootDirEntry]}

/-- Scenario state for the deferred-external-change claim: one indexed
file. -/
def fsDeferred : FileSystem := {mkFileSystem implOk with index := [fileEntryF]}

/-- Scenario state for the dedup claims: an empty file system. -/
def fsEmpty : FileSystem := mkFileSystem implOk

/-- Scenario state for the double-watch counterexample: "/a/" is an active
watched root. -/
def fsWatchedA : FileSystem := (FileSystem.watch ({mkFileSystem implOk with
  index := [dirAEntry]}) dirAEntry trueFilter).1

/-- Scenario state for the unwatch claim: "/r/" is an active watched root,
with one child and one outside entry indexed, over a backend whose unwatch
fails. -/
def fsUnwatch : FileSystem := {mkFileSystem implUnwatchFail with
  index := [rootREntry, childEntryR, outsideEntry],
  watchedRoots := [("/r/".toList, ⟨rootREntry, trueFilter, true⟩)]}

/-- Executable mirror of `_handleExternalChange` (normalization via
`normalizePathExec`); `handleExternalChange_eq_exec` proves agreement. -/
def FileSystem.handleExternalChangeExec (fs : FileSystem) (path? : Option FsPath)
    (stat : Option FileSystemStats) : Except FsError FileSystem :=
  match path? with
  | none =>
    let fs1 := {fs with index := fs.index.map clearCachedData}
    .ok (fireChangeEvent fs1 none none none)
  | some path =>
    match normalizePathExec fs.impl.normalizeUNCPaths path false with
    | .error e => .error e
    | .ok np =>
      match fs.getEntry np with
      | none => .ok fs
      | some entry =>
        if entry.isFile then
          if (match stat, entry.stat with
              | some st, some est => st.mtime == est.mtime
              | _, _ => false) then .ok fs
          else
            let fs1 := fs.updateEntryById entry.id
              (fun e => {clearCachedData e with stat := stat})
            .ok (fireChangeEvent fs1 (some entry.id) none none)
        else
          match fs.handleDirectoryChange entry with
          | .error e => .error e
          | .ok (fs1, added, removed) =>
            let fs2 := fs1.updateEntryById entry.id (fun e => {e with stat := stat})
            .ok (fireChangeEvent fs2 (some entry.id) (some added) (some removed))

/-- Executable mirror of the `_triggerExternalChangesNow` loop. -/
def triggerLoopExec : FileSystem → List ExternalChange → Except FsError FileSystem
  | fs, [] => .ok fs
  | fs, c :: rest =>
    match fs.handleExternalChangeExec c.path c.stat with
    | .error e => .error e
    | .ok fs1 => triggerLoopExec fs1 rest

lemma splitOnSlash_ne_nil (p : FsPath) : splitOnSlash p ≠ [] := by
  cases p with
  | nil => simp [splitOnSlash]
  | cons c rest =>
    simp only [splitOnSlash]
    split
    · simp
    · split <;> simp_all

lemma spliceLoop_of_none (segs : List FsPath) (i : Nat) (h : segs[i]? = none) :
    spliceLoop segs i = .ok segs := by
  rw [spliceLoop]
  split <;> simp_all

lemma spliceLoop_of_dotdot_small (segs : List FsPath) (i : Nat)
    (h : segs[i]? = some dotdot) (h2 : i < 2) :
    spliceLoop segs i = .error .invalidPath := by
  rw [spliceLoop]
  split <;> simp_all

lemma spliceLoop_of_dotdot (segs : List FsPath) (i : Nat)
    (h : segs[i]? = some dotdot) (h2 : ¬ i < 2) :
    spliceLoop segs i = spliceLoop (segs.take (i - 1) ++ segs.drop (i + 1)) (i - 1) := by
  rw [spliceLoop]
  split <;> simp_all

lemma spliceLoop_of_other (segs : List FsPath) (i : Nat) (s : FsPath)
    (h : segs[i]? = some s) (hs : s ≠ dotdot) :
    spliceLoop segs i = spliceLoop segs (i + 1) := by
  rw [spliceLoop]
  split <;> simp_all

lemma spliceLoop_eq_resolveStack :
    ∀ (rest acc : List FsPath), acc ≠ [] →
      spliceLoop (acc.reverse ++ rest) acc.length = resolveStack acc rest := by
  intro rest
  induction rest with
  | nil =>
    intro acc hacc
    rw [resolveStack, List.append_nil]
    exact spliceLoop_of_none _ _ (List.getElem?_eq_none (by simp))
  | cons s rest ih =>
    intro acc hacc
    have hlen : (acc.reverse ++ s :: rest)[acc.length]? = some s := by
      rw [List.getElem?_append_right (by simp)]
      simp
    rw [resolveStack]
    by_cases hdd : s = dotdot
    · subst hdd
      rw [if_pos rfl]
      by_cases hsmall : acc.length < 2
      · rw [if_pos hsmall]
        exact spliceLoop_of_dotdot_small _ _ hlen hsmall
      · rw [if_neg hsmall]
        rw [spliceLoop_of_dotdot _ _ hlen hsmall]
        obtain ⟨a, acc', rfl⟩ : ∃ a acc', acc = a :: acc' := by
          cases acc with
          | nil => exact absurd rfl hacc
          | cons a acc' => exact ⟨a, acc', rfl⟩
        have hacc' : acc' ≠ [] := by
          intro h
          subst h
          simp at hsmall
        have htake : ((a :: acc').reverse ++ dotdot :: rest).take ((a :: acc').length - 1)
            = acc'.reverse := by
          have h1 : (a :: acc').reverse = acc'.reverse ++ [a] := by simp
          rw [h1, List.append_assoc]
          rw [List.take_append_of_le_length (by simp)]
          simp
        have hdrop : ((a :: acc').reverse ++ dotdot :: rest).drop ((a :: acc').length + 1)
            = rest := by
          have h2 : (a :: acc').reverse ++ dotdot :: rest
              = ((a :: acc').reverse ++ [dotdot]) ++ rest := by
            simp
          have h1 : (a :: acc').length + 1 = ((a :: acc').reverse ++ [dotdot]).length := by
            simp
          rw [h2, h1, List.drop_left]
        rw [htake, hdrop]
        have hlen' : (a :: acc').length - 1 = acc'.length := by simp
        rw [hlen', List.tail_cons]
        exact ih acc' hacc'
    · rw [if_neg hdd]
      rw [spliceLoop_of_other _ _ _ hlen hdd]
      have h2 : acc.reverse ++ s :: rest = (s :: acc).reverse ++ rest := by simp
      have h3 : acc.length + 1 = (s :: acc).length := by simp
      rw [h2, h3]
      exact ih (s :: acc) (by simp)
lemma normalizePath_eq_exec (unc : Bool) (p : FsPath) (d : Bool) :
    normalizePath unc p d = normalizePathExec unc p d := by
  unfold normalizePath normalizePathExec
  by_cases habs : isAbsolutePath p
  · simp only [habs, if_pos]
    obtain ⟨s0, rest, hsplit⟩ : ∃ s0 rest, splitOnSlash (collapseSlashes p) = s0 :: rest := by
      cases h : splitOnSlash (collapseSlashes p) with
      | nil => exact absurd h (splitOnSlash_ne_nil _)
      | cons s0 rest => exact ⟨s0, rest, rfl⟩
    rw [hsplit]
    have := spliceLoop_eq_resolveStack rest [s0] (by simp)
    simp only [List.reverse_singleton, List.singleton_append, List.length_singleton] at this
    rw [this]
    rfl
  · simp [habs]

lemma collapseSlashes_head (c : Char) (t : FsPath) :
    ∃ u, collapseSlashes (c :: t) = c :: u := by
  induction t generalizing c with
  | nil => exact ⟨[], rfl⟩
  | cons d t' ih =>
    rw [collapseSlashes]
    by_cases hcd : (c == '/' && d == '/') = true
    · obtain ⟨u, hu⟩ := ih d
      have hc : c = '/' := by
        simp only [Bool.and_eq_true, beq_iff_eq] at hcd
        exact hcd.1
      have hd : d = '/' := by
        simp only [Bool.and_eq_true, beq_iff_eq] at hcd
        exact hcd.2
      rw [if_pos hcd, hu, hc, hd]
      exact ⟨u, rfl⟩
    · rw [if_neg hcd]
      exact ⟨collapseSlashes (d :: t'), rfl⟩

lemma dupFree_collapseSlashes (p : FsPath) : dupFree (collapseSlashes p) = true := by
  induction p with
  | nil => rfl
  | cons c p' ih =>
    cases p' with
    | nil => rfl
    | cons d t =>
      rw [collapseSlashes]
      by_cases hcd : (c == '/' && d == '/') = true
      · rw [if_pos hcd]
        exact ih
      · rw [if_neg hcd]
        obtain ⟨u, hu⟩ := collapseSlashes_head d t
        rw [hu]
        rw [hu] at ih
        simp only [dupFree, Bool.and_eq_true]
        refine ⟨?_, ih⟩
        have hcd' : c = '/' → ¬d = '/' := by simpa using hcd
        by_cases hc : c = '/'
        · simp [hcd' hc]
        · simp [hc]

lemma collapseSlashes_of_dupFree (p : FsPath) (h : dupFree p = true) :
    collapseSlashes p = p := by
  induction p with
  | nil => rfl
  | cons c p' ih =>
    cases p' with
    | nil => rfl
    | cons d t =>
      simp only [dupFree, Bool.and_eq_true, Bool.not_eq_true'] at h
      rw [collapseSlashes, if_neg (by simp [h.1]), ih h.2]

lemma splitOnSlash_no_slash (p : FsPath) : ∀ s ∈ splitOnSlash p, '/' ∉ s := by
  induction p with
  | nil =>
    intro s hs
    simp [splitOnSlash] at hs
    simp [hs]
  | cons c rest ih =>
    intro s hs
    rw [splitOnSlash] at hs
    by_cases hc : (c == '/') = true
    · rw [if_pos hc] at hs
      rcases List.mem_cons.mp hs with h | h
      · simp [h]
      · exact ih s h
    · rw [if_neg hc] at hs
      cases hsplit : splitOnSlash rest with
      | nil => exact absurd hsplit (splitOnSlash_ne_nil rest)
      | cons s' ss =>
        rw [hsplit] at hs
        rcases List.mem_cons.mp hs with h | h
        · subst h
          intro hmem
          rcases List.mem_cons.mp hmem with h | h
          · simp at hc
            exact hc h.symm
          · exact ih s' (by rw [hsplit]; exact List.mem_cons_self _ _) h
        · exact ih s (by rw [hsplit]; exact List.mem_cons_of_mem _ h)

lemma joinSlash_cons_cons (c : Char) (s : FsPath) (ss : List FsPath) :
    joinSlash ((c :: s) :: ss) = c :: joinSlash (s :: ss) := by
  cases ss with
  | nil => rfl
  | cons y ys => rfl

lemma joinSlash_splitOnSlash (p : FsPath) : joinSlash (splitOnSlash p) = p := by
  induction p with
  | nil => rfl
  | cons c rest ih =>
    rw [splitOnSlash]
    by_cases hc : (c == '/') = true
    · rw [if_pos hc]
      have hne := splitOnSlash_ne_nil rest
      cases hsplit : splitOnSlash rest with
      | nil => exact absurd hsplit hne
      | cons s ss =>
        have hc' : c = '/' := by simpa using hc
        rw [hsplit] at ih
        subst hc'
        show joinSlash ([] :: s :: ss) = '/' :: rest
        rw [show joinSlash ([] :: s :: ss) = [] ++ '/' :: joinSlash (s :: ss) from rfl]
        simp [ih]
    · rw [if_neg hc]
      cases hsplit : splitOnSlash rest with
      | nil => exact absurd hsplit (splitOnSlash_ne_nil rest)
      | cons s ss =>
        rw [hsplit] at ih
        rw [joinSlash_cons_cons, ih]

lemma splitOnSlash_of_no_slash (s : FsPath) (h : '/' ∉ s) : splitOnSlash s = [s] := by
  induction s with
  | nil => rfl
  | cons c t ih =>
    have hc : ¬(c == '/') = true := by
      simp only [beq_iff_eq]
      intro hcc
      exact h (by simp [hcc])
    rw [splitOnSlash, if_neg hc, ih (fun hm => h (List.mem_cons_of_mem _ hm))]

lemma splitOnSlash_append_sep (s r : FsPath) (h : '/' ∉ s) :
    splitOnSlash (s ++ '/' :: r) = s :: splitOnSlash r := by
  induction s with
  | nil =>
    show splitOnSlash ('/' :: r) = [] :: splitOnSlash r
    rw [splitOnSlash, if_pos (by simp)]
  | cons c t ih =>
    have hc : ¬(c == '/') = true := by
      simp only [beq_iff_eq]
      intro hcc
      exact h (by simp [hcc])
    show splitOnSlash (c :: (t ++ '/' :: r)) = (c :: t) :: splitOnSlash r
    rw [splitOnSlash, if_neg hc, ih (fun hm => h (List.mem_cons_of_mem _ hm))]

lemma splitOnSlash_joinSlash (segs : List FsPath) (hne : segs ≠ [])
    (h : ∀ s ∈ segs, '/' ∉ s) : splitOnSlash (joinSlash segs) = segs := by
  induction segs with
  | nil => exact absurd rfl hne
  | cons s ss ih =>
    cases ss with
    | nil =>
      show splitOnSlash (joinSlash [s]) = [s]
      rw [show joinSlash [s] = s from rfl]
      exact splitOnSlash_of_no_slash s (h s (List.mem_cons_self _ _))
    | cons b ss' =>
      rw [show joinSlash (s :: b :: ss') = s ++ '/' :: joinSlash (b :: ss') from rfl]
      rw [splitOnSlash_append_sep s _ (h s (List.mem_cons_self _ _))]
      rw [ih (by simp) (fun x hx => h x (List.mem_cons_of_mem _ hx))]

lemma splitOnSlash_append_slash (p : FsPath) :
    splitOnSlash (p ++ ['/']) = splitOnSlash p ++ [[]] := by
  induction p with
  | nil =>
    show splitOnSlash ['/'] = [[], []]
    rw [splitOnSlash, if_pos (by simp)]
    rfl
  | cons c rest ih =>
    show splitOnSlash (c :: (rest ++ ['/'])) = splitOnSlash (c :: rest) ++ [[]]
    rw [splitOnSlash, splitOnSlash]
    by_cases hc : (c == '/') = true
    · rw [if_pos hc, if_pos hc, ih]
      rfl
    · rw [if_neg hc, if_neg hc, ih]
      cases hsplit : splitOnSlash rest with
      | nil => exact absurd hsplit (splitOnSlash_ne_nil rest)
      | cons s ss => rfl

lemma containsDotDot_append_slash (p : FsPath) :
    containsDotDot (p ++ ['/']) = containsDotDot p := by
  induction p with
  | nil => rfl
  | cons c rest ih =>
    cases rest with
    | nil =>
      show containsDotDot [c, '/'] = containsDotDot [c]
      simp [containsDotDot]
    | cons d t =>
      show containsDotDot (c :: d :: (t ++ ['/'])) = containsDotDot (c :: d :: t)
      rw [containsDotDot]
      rw [show containsDotDot (c :: d :: t) = ((c == '.' && d == '.') || containsDotDot (d :: t)) from rfl]
      rw [show d :: (t ++ ['/']) = (d :: t) ++ ['/'] from rfl, ih]

lemma containsDotDot_cons_slash (p : FsPath) :
    containsDotDot ('/' :: p) = containsDotDot p := by
  cases p with
  | nil => rfl
  | cons d t =>
    rw [containsDotDot]
    simp [containsDotDot]

lemma appendTrailingSlash_getLast (p : FsPath) :
    (appendTrailingSlash p).getLast? = some '/' := by
  rw [appendTrailingSlash]
  by_cases h : (p.getLast? == some '/') = true
  · rw [if_pos h]
    simpa using h
  · rw [if_neg h]
    exact List.getLast?_concat _

lemma appendTrailingSlash_of_getLast (p : FsPath) (h : p.getLast? = some '/') :
    appendTrailingSlash p = p := by
  rw [appendTrailingSlash, if_pos (by simp [h])]

lemma appendTrailingSlash_head (p : FsPath) (h : p ≠ []) :
    (appendTrailingSlash p).head? = p.head? := by
  rw [appendTrailingSlash]
  by_cases hl : (p.getLast? == some '/') = true
  · rw [if_pos hl]
  · rw [if_neg hl]
    cases p with
    | nil => exact absurd rfl h
    | cons c t => rfl

lemma containsDotDot_appendTrailingSlash (p : FsPath) :
    containsDotDot (appendTrailingSlash p) = containsDotDot p := by
  rw [appendTrailingSlash]
  by_cases hl : (p.getLast? == some '/') = true
  · rw [if_pos hl]
  · rw [if_neg hl]
    exact containsDotDot_append_slash p

lemma dupFree_of_no_slash (p : FsPath) (h : '/' ∉ p) : dupFree p = true := by
  induction p with
  | nil => rfl
  | cons c t ih =>
    cases t with
    | nil => rfl
    | cons d t' =>
      rw [dupFree]
      have hc : ¬c = '/' := fun hcc => h (by simp [hcc])
      simp only [Bool.and_eq_true, Bool.not_eq_true']
      exact ⟨by simp [hc], ih (fun hm => h (List.mem_cons_of_mem _ hm))⟩

lemma dupFree_cons_cons (c d : Char) (t : FsPath) (hcd : ¬(c = '/' ∧ d = '/'))
    (h : dupFree (d :: t) = true) : dupFree (c :: d :: t) = true := by
  rw [dupFree]
  simp only [Bool.and_eq_true, Bool.not_eq_true']
  constructor
  · by_cases hc : c = '/' <;> by_cases hd : d = '/' <;> simp_all
  · exact h

lemma dupFree_tail (c : Char) (t : FsPath) (h : dupFree (c :: t) = true) :
    dupFree t = true := by
  cases t with
  | nil => rfl
  | cons d t' =>
    rw [dupFree] at h
    simp only [Bool.and_eq_true] at h
    exact h.2

lemma dupFree_not_both (c d : Char) (t : FsPath) (h : dupFree (c :: d :: t) = true) :
    ¬(c = '/' ∧ d = '/') := by
  rw [dupFree] at h
  simp only [Bool.and_eq_true, Bool.not_eq_true'] at h
  intro hcd
  simp [hcd.1, hcd.2] at h

lemma dupFree_append (p q : FsPath) (hp : dupFree p = true) (hq : dupFree q = true)
    (hmid : p.getLast? = some '/' → q.head? ≠ some '/') :
    dupFree (p ++ q) = true := by
  induction p with
  | nil => simpa using hq
  | cons c t ih =>
    cases t with
    | nil =>
      cases q with
      | nil => rfl
      | cons e q' =>
        refine dupFree_cons_cons c e q' ?_ hq
        intro ⟨hc, he⟩
        exact hmid (by simp [hc]) (by simp [he])
    | cons d t' =>
      show dupFree (c :: d :: (t' ++ q)) = true
      have h1 : (d :: t').getLast? = (c :: d :: t').getLast? := by
        rw [List.getLast?_cons_cons]
      refine dupFree_cons_cons c d (t' ++ q) (dupFree_not_both c d t' hp) ?_
      exact ih (dupFree_tail c _ hp) (by rw [h1]; exact hmid)

lemma dupFree_not_startsWithDoubleSlash (p : FsPath) (h : dupFree p = true) :
    startsWithDoubleSlash p = false := by
  cases p with
  | nil => rfl
  | cons c t =>
    cases t with
    | nil =>
      rw [startsWithDoubleSlash.eq_def]
      split <;> simp_all
    | cons d t' =>
      rw [startsWithDoubleSlash.eq_def]
      split
      · rename_i heq
        injection heq with h1 h2
        injection h2 with h2 h3
        exact absurd ⟨h1, h2⟩ (dupFree_not_both c d t' h)
      · rfl

lemma joinSlash_head (b : FsPath) (ss : List FsPath) (hb : b ≠ []) :
    (joinSlash (b :: ss)).head? = b.head? := by
  cases ss with
  | nil => rfl
  | cons y ys =>
    rw [show joinSlash (b :: y :: ys) = b ++ '/' :: joinSlash (y :: ys) from rfl]
    cases b with
    | nil => exact absurd rfl hb
    | cons c t => rfl

lemma dupFree_joinSlash (segs : List FsPath) (hne : segs ≠ [])
    (hns : ∀ s ∈ segs, '/' ∉ s)
    (hmid : ∀ s ∈ (segs.drop 1).dropLast, s ≠ []) :
    dupFree (joinSlash segs) = true := by
  induction segs with
  | nil => exact absurd rfl hne
  | cons s ss ih =>
    cases ss with
    | nil => exact dupFree_of_no_slash s (hns s (List.mem_cons_self _ _))
    | cons b ss' =>
      rw [show joinSlash (s :: b :: ss') = s ++ '/' :: joinSlash (b :: ss') from rfl]
      have hbody : dupFree ('/' :: joinSlash (b :: ss')) = true := by
        cases b with
        | nil =>
          cases ss' with
          | nil => rfl
          | cons y ys =>
            exfalso
            refine hmid [] ?_ rfl
            show ([] : FsPath) ∈ ((s :: [] :: y :: ys).drop 1).dropLast
            simp
        | cons e bt =>
          have hdf : dupFree (joinSlash ((e :: bt) :: ss')) = true := by
            refine ih (by simp) (fun x hx => hns x (List.mem_cons_of_mem _ hx)) ?_
            intro x hx
            refine hmid x ?_
            cases ss' with
            | nil => simp at hx
            | cons y ys =>
              simp only [List.drop_one, List.tail_cons] at hx ⊢
              rw [List.dropLast_cons_of_ne_nil (by simp)]
              exact List.mem_cons_of_mem _ hx
          have he : ¬e = '/' := by
            intro hee
            exact hns (e :: bt) (by simp) (by simp [hee])
          have hj : (joinSlash ((e :: bt) :: ss')).head? = some e :=
            joinSlash_head (e :: bt) ss' (by simp)
          cases hjj : joinSlash ((e :: bt) :: ss') with
          | nil =>
            rw [hjj] at hj
            exact absurd hj (by simp)
          | cons f u =>
            have hf : f = e := by
              rw [hjj] at hj
              simpa using hj
            subst hf
            refine dupFree_cons_cons '/' f u (by simp [he]) ?_
            rw [← hjj]
            exact hdf
      refine dupFree_append s _ (dupFree_of_no_slash s (hns s (by simp))) hbody ?_
      intro hlast
      exfalso
      have hsl : '/' ∈ s := by
        rcases List.getLast?_eq_some_iff.mp hlast with ⟨l, hl⟩
        rw [hl]
        simp
      exact hns s (by simp) hsl

lemma reverse_drop_one (l : List FsPath) : l.reverse.drop 1 = l.dropLast.reverse := by
  induction l with
  | nil => rfl
  | cons a t ih =>
    cases t with
    | nil => rfl
    | cons b t' =>
      have h1 : (a :: b :: t').reverse = (b :: t').reverse ++ [a] := List.reverse_cons _ _
      have h2 : (a :: b :: t').dropLast = a :: (b :: t').dropLast :=
        List.dropLast_cons_of_ne_nil (by simp)
      rw [h1, List.drop_append_of_le_length (by simp), ih, h2, List.reverse_cons]

lemma resolveStack_ne_head (rest : List FsPath) :
    ∀ (acc out : List FsPath), acc ≠ [] → resolveStack acc rest = .ok out →
      out ≠ [] ∧ out.head? = acc.getLast? := by
  induction rest with
  | nil =>
    intro acc out hacc h
    rw [resolveStack] at h
    injection h with h
    subst h
    exact ⟨by simpa using hacc, List.head?_reverse acc⟩
  | cons s rest ih =>
    intro acc out hacc h
    rw [resolveStack] at h
    by_cases hdd : s = dotdot
    · rw [if_pos hdd] at h
      by_cases hsmall : acc.length < 2
      · rw [if_pos hsmall] at h
        exact absurd h (by simp)
      · rw [if_neg hsmall] at h
        obtain ⟨a, b, t, rfl⟩ : ∃ a b t, acc = a :: b :: t := by
          cases acc with
          | nil => exact absurd rfl hacc
          | cons a t0 =>
            cases t0 with
            | nil => simp at hsmall
            | cons b t => exact ⟨a, b, t, rfl⟩
        rw [List.tail_cons] at h
        have := ih (b :: t) out (by simp) h
        rwa [List.getLast?_cons_cons]
    · rw [if_neg hdd] at h
      have := ih (s :: acc) out (by simp) h
      obtain ⟨a, t, rfl⟩ : ∃ a t, acc = a :: t := by
        cases acc with
        | nil => exact absurd rfl hacc
        | cons a t => exact ⟨a, t, rfl⟩
      rwa [List.getLast?_cons_cons] at this

lemma resolveStack_not_dotdot (rest : List FsPath) :
    ∀ (acc out : List FsPath), (∀ x ∈ acc, x ≠ dotdot) →
      resolveStack acc rest = .ok out → ∀ x ∈ out, x ≠ dotdot := by
  induction rest with
  | nil =>
    intro acc out hacc h
    rw [resolveStack] at h
    injection h with h
    subst h
    intro x hx
    exact hacc x (List.mem_reverse.mp hx)
  | cons s rest ih =>
    intro acc out hacc h
    rw [resolveStack] at h
    by_cases hdd : s = dotdot
    · rw [if_pos hdd] at h
      by_cases hsmall : acc.length < 2
      · rw [if_pos hsmall] at h
        exact absurd h (by simp)
      · rw [if_neg hsmall] at h
        refine ih acc.tail out ?_ h
        intro x hx
        exact hacc x (List.mem_of_mem_tail hx)
    · rw [if_neg hdd] at h
      refine ih (s :: acc) out ?_ h
      intro x hx
      rcases List.mem_cons.mp hx with hx | hx
      · rw [hx]
        exact hdd
      · exact hacc x hx

lemma resolveStack_no_slash (rest : List FsPath) :
    ∀ (acc out : List FsPath), (∀ x ∈ acc, '/' ∉ x) → (∀ x ∈ rest, '/' ∉ x) →
      resolveStack acc rest = .ok out → ∀ x ∈ out, '/' ∉ x := by
  induction rest with
  | nil =>
    intro acc out hacc _ h
    rw [resolveStack] at h
    injection h with h
    subst h
    intro x hx
    exact hacc x (List.mem_reverse.mp hx)
  | cons s rest ih =>
    intro acc out hacc hrest h
    rw [resolveStack] at h
    by_cases hdd : s = dotdot
    · rw [if_pos hdd] at h
      by_cases hsmall : acc.length < 2
      · rw [if_pos hsmall] at h
        exact absurd h (by simp)
      · rw [if_neg hsmall] at h
        refine ih acc.tail out ?_ (fun x hx => hrest x (List.mem_cons_of_mem _ hx)) h
        intro x hx
        exact hacc x (List.mem_of_mem_tail hx)
    · rw [if_neg hdd] at h
      refine ih (s :: acc) out ?_ (fun x hx => hrest x (List.mem_cons_of_mem _ hx)) h
      intro x hx
      rcases List.mem_cons.mp hx with hx | hx
      · rw [hx]
        exact hrest s (List.mem_cons_self _ _)
      · exact hacc x hx

lemma resolveStack_interior (rest : List FsPath) :
    ∀ (acc out : List FsPath), acc ≠ [] →
      (∀ x ∈ acc.dropLast, x ≠ []) → (∀ x ∈ rest.dropLast, x ≠ []) →
      resolveStack acc rest = .ok out → ∀ x ∈ (out.drop 1).dropLast, x ≠ [] := by
  induction rest with
  | nil =>
    intro acc out hacc hq _ h
    rw [resolveStack] at h
    injection h with h
    subst h
    intro x hx
    rw [reverse_drop_one] at hx
    exact hq x (List.mem_reverse.mp (List.Sublist.subset (List.dropLast_sublist _) hx))
  | cons s rest ih =>
    intro acc out hacc hq hrest h
    rw [resolveStack] at h
    by_cases hdd : s = dotdot
    · rw [if_pos hdd] at h
      by_cases hsmall : acc.length < 2
      · rw [if_pos hsmall] at h
        exact absurd h (by simp)
      · rw [if_neg hsmall] at h
        obtain ⟨a, b, t, rfl⟩ : ∃ a b t, acc = a :: b :: t := by
          cases acc with
          | nil => exact absurd rfl hacc
          | cons a t0 =>
            cases t0 with
            | nil => simp at hsmall
            | cons b t => exact ⟨a, b, t, rfl⟩
        rw [List.tail_cons] at h
        refine ih (b :: t) out (by simp) ?_ ?_ h
        · intro x hx
          refine hq x ?_
          rw [List.dropLast_cons_of_ne_nil (by simp)]
          exact List.mem_cons_of_mem _ hx
        · intro x hx
          cases rest with
          | nil => simp at hx
          | cons y ys =>
            refine hrest x ?_
            rw [List.dropLast_cons_of_ne_nil (by simp)]
            exact List.mem_cons_of_mem _ hx
    · rw [if_neg hdd] at h
      cases rest with
      | nil =>
        rw [resolveStack] at h
        injection h with h
        subst h
        intro x hx
        rw [List.reverse_cons] at hx
        rw [List.drop_append_of_le_length
          (by have : 0 < acc.length := List.length_pos.mpr hacc; simp; omega)] at hx
        rw [List.dropLast_concat] at hx
        rw [reverse_drop_one] at hx
        exact hq x (List.mem_reverse.mp hx)
      | cons y ys =>
        refine ih (s :: acc) out (by simp) ?_ ?_ h
        · intro x hx
          rw [List.dropLast_cons_of_ne_nil hacc] at hx
          rcases List.mem_cons.mp hx with hx | hx
          · subst hx
            refine hrest x ?_
            rw [List.dropLast_cons_of_ne_nil (by simp)]
            exact List.mem_cons_self _ _
          · exact hq x hx
        · intro x hx
          refine hrest x ?_
          rw [List.dropLast_cons_of_ne_nil (by simp)]
          exact List.mem_cons_of_mem _ hx

lemma resolveStack_id (rest : List FsPath) :
    ∀ (acc : List FsPath), (∀ x ∈ rest, x ≠ dotdot) →
      resolveStack acc rest = .ok (acc.reverse ++ rest) := by
  induction rest with
  | nil =>
    intro acc _
    rw [resolveStack, List.append_nil]
  | cons s rest ih =>
    intro acc hrest
    rw [resolveStack, if_neg (hrest s (List.mem_cons_self _ _))]
    rw [ih (s :: acc) (fun x hx => hrest x (List.mem_cons_of_mem _ hx))]
    simp

lemma splitOnSlash_cons_slash (t : FsPath) :
    splitOnSlash ('/' :: t) = [] :: splitOnSlash t := by
  rw [splitOnSlash, if_pos (by simp)]

lemma splitOnSlash_cons_ne (c : Char) (t : FsPath) (hc : ¬c = '/') :
    ∃ s ss, splitOnSlash t = s :: ss ∧ splitOnSlash (c :: t) = (c :: s) :: ss := by
  cases hsplit : splitOnSlash t with
  | nil => exact absurd hsplit (splitOnSlash_ne_nil t)
  | cons s ss =>
    refine ⟨s, ss, rfl, ?_⟩
    rw [splitOnSlash, if_neg (by simpa using hc), hsplit]

lemma split_structure (x : FsPath) (hdf : dupFree x = true) :
    (∀ s ∈ ((splitOnSlash x).drop 1).dropLast, s ≠ []) ∧
    (x.head? ≠ some '/' → ∀ s ∈ (splitOnSlash x).dropLast, s ≠ []) := by
  induction x with
  | nil =>
    constructor
    · intro s hs
      simp [splitOnSlash] at hs
    · intro _ s hs
      simp [splitOnSlash] at hs
  | cons c t ih =>
    have ihx := ih (dupFree_tail c t hdf)
    by_cases hc : c = '/'
    · subst hc
      rw [splitOnSlash_cons_slash]
      have hth : t.head? ≠ some '/' := by
        cases t with
        | nil => simp
        | cons e t2 =>
          intro hcon
          have he : e = '/' := by simpa using hcon
          exact dupFree_not_both '/' e t2 hdf ⟨rfl, he⟩
      constructor
      · intro s hs
        simp only [List.drop_one, List.tail_cons] at hs
        exact ihx.2 hth s hs
      · intro hhead
        simp at hhead
    · obtain ⟨s, ss, hsplit, hsplit2⟩ := splitOnSlash_cons_ne c t hc
      rw [hsplit2]
      have hss : ((splitOnSlash t).drop 1) = ss := by rw [hsplit]; rfl
      constructor
      · intro x hx
        simp only [List.drop_one, List.tail_cons] at hx
        exact ihx.1 x (by rw [hss]; exact hx)
      · intro _ x hx
        cases ss with
        | nil => simp at hx
        | cons y ys =>
          rw [List.dropLast_cons_of_ne_nil (by simp)] at hx
          rcases List.mem_cons.mp hx with hx | hx
          · subst hx
            simp
          · exact ihx.1 x (by rw [hss]; exact hx)

lemma isAbsolutePath_cases (p : FsPath) (h : isAbsolutePath p = true) :
    (∃ t, p = '/' :: t) ∨ (∃ c w, p = c :: ':' :: w ∧ ¬c = '/') := by
  rw [isAbsolutePath] at h
  simp only [Bool.or_eq_true, beq_iff_eq] at h
  cases p with
  | nil => simp at h
  | cons c t =>
    by_cases hc : c = '/'
    · exact Or.inl ⟨t, by rw [hc]⟩
    · right
      rcases h with h | h
      · exact absurd (by simpa using h) hc
      · cases t with
        | nil => simp at h
        | cons d w =>
          have hd : d = ':' := by simpa using h
          exact ⟨c, w, by rw [hd], hc⟩

lemma collapseSlashes_colon (c : Char) (w : FsPath) ( _hc : ¬c = '/') :
    ∃ u, collapseSlashes (c :: ':' :: w) = c :: ':' :: u := by
  obtain ⟨u, hu⟩ := collapseSlashes_head ':' w
  refine ⟨u, ?_⟩
  rw [collapseSlashes, if_neg (by simp), hu]

lemma dupFree_appendTrailingSlash (p : FsPath) (h : dupFree p = true) :
    dupFree (appendTrailingSlash p) = true := by
  rw [appendTrailingSlash]
  by_cases hl : (p.getLast? == some '/') = true
  · rwa [if_pos hl]
  · rw [if_neg hl]
    refine dupFree_append p ['/'] h rfl ?_
    intro hcon
    exact absurd (by simp [hcon]) hl

lemma normalizePath_eq_resolveStep (unc : Bool) (p : FsPath) (d : Bool) :
    normalizePath unc p d =
      if isAbsolutePath p then
        (resolveStep (collapseSlashes p)).map (fun resolved =>
          let withSlash := if d then appendTrailingSlash resolved else resolved
          if unc && startsWithDoubleSlash p then '/' :: withSlash else withSlash)
      else .error .absolutePathRequired := by
  rw [normalizePath, resolveStep]
  by_cases habs : isAbsolutePath p
  · rw [if_pos habs, if_pos habs]
    cases hstep : (if containsDotDot (collapseSlashes p) = true then
        Except.map joinSlash (spliceLoop (splitOnSlash (collapseSlashes p)) 1)
      else Except.ok (collapseSlashes p)) with
    | error e =>
      show (match (if containsDotDot (collapseSlashes p) = true then
          Except.map joinSlash (spliceLoop (splitOnSlash (collapseSlashes p)) 1)
        else Except.ok (collapseSlashes p)) with
        | Except.error e => Except.error e
        | Except.ok resolved =>
          Except.ok (if (unc && startsWithDoubleSlash p) = true then
              '/' :: (if d = true then appendTrailingSlash resolved else resolved)
            else (if d = true then appendTrailingSlash resolved else resolved))) = _
      rw [hstep]
      rfl
    | ok resolved =>
      show (match (if containsDotDot (collapseSlashes p) = true then
          Except.map joinSlash (spliceLoop (splitOnSlash (collapseSlashes p)) 1)
        else Except.ok (collapseSlashes p)) with
        | Except.error e => Except.error e
        | Except.ok resolved =>
          Except.ok (if (unc && startsWithDoubleSlash p) = true then
              '/' :: (if d = true then appendTrailingSlash resolved else resolved)
            else (if d = true then appendTrailingSlash resolved else resolved))) = _
      rw [hstep]
      rfl
  · rw [if_neg habs, if_neg habs]

lemma resolveStep_self (q : FsPath)
    (hseg : containsDotDot q = true → ∀ s ∈ splitOnSlash q, s ≠ dotdot) :
    resolveStep q = .ok q := by
  rw [resolveStep]
  by_cases hc : containsDotDot q = true
  · rw [if_pos hc]
    cases hsplit : splitOnSlash q with
    | nil => exact absurd hsplit (splitOnSlash_ne_nil q)
    | cons s0 rest =>
      have heq := spliceLoop_eq_resolveStack rest [s0] (by simp)
      simp only [List.reverse_singleton, List.singleton_append, List.length_singleton] at heq
      rw [heq, resolveStack_id rest [s0] ?side]
      case side =>
        intro x hx
        exact hseg hc x (by rw [hsplit]; exact List.mem_cons_of_mem _ hx)
      simp only [List.reverse_singleton, List.singleton_append, Except.map]
      rw [← hsplit, joinSlash_splitOnSlash q]
  · rw [if_neg hc]

/-- Canonical-form facts about the result of the `..`-removal step, for a
slash-collapsed absolute input `q`. -/
lemma resolveStep_facts (q p2 : FsPath) (hdf : dupFree q = true)
    (hq : (∃ t, q = '/' :: t) ∨ (∃ c w, q = c :: ':' :: w ∧ ¬c = '/'))
    (h : resolveStep q = .ok p2) :
    dupFree p2 = true ∧
    (containsDotDot p2 = true → ∀ s ∈ splitOnSlash p2, s ≠ dotdot) ∧
    ((∃ t, q = '/' :: t) → (p2 = [] ∨ ∃ t2, p2 = '/' :: t2)) ∧
    (∀ c w, q = c :: ':' :: w → ¬c = '/' → ∃ w2, p2 = c :: ':' :: w2) := by
  rw [resolveStep] at h
  by_cases hc : containsDotDot q = true
  · rw [if_pos hc] at h
    cases hsplit : splitOnSlash q with
    | nil => exact absurd hsplit (splitOnSlash_ne_nil q)
    | cons s0 rest =>
      rw [hsplit] at h
      have heq := spliceLoop_eq_resolveStack rest [s0] (by simp)
      simp only [List.reverse_singleton, List.singleton_append, List.length_singleton] at heq
      rw [heq] at h
      cases hrs : resolveStack [s0] rest with
      | error e =>
        rw [hrs] at h
        exact absurd h (by simp [Except.map])
      | ok out =>
        rw [hrs] at h
        have hp2 : p2 = joinSlash out := by
          simp only [Except.map] at h
          injection h with h
          exact h.symm
        -- structure of the head segment s0
        have hs0 : (s0 = [] ∧ ∃ t, q = '/' :: t) ∨
            (∃ c s2, s0 = c :: ':' :: s2 ∧ ¬c = '/') := by
          rcases hq with ⟨t, rfl⟩ | ⟨c, w, rfl, hcq⟩
          · left
            rw [splitOnSlash_cons_slash] at hsplit
            exact ⟨by injection hsplit with h1 _; exact h1.symm, ⟨t, rfl⟩⟩
          · right
            obtain ⟨s1, ss1, hsp1, hsp2⟩ := splitOnSlash_cons_ne c (':' :: w) hcq
            obtain ⟨s2, ss2, hsp3, hsp4⟩ := splitOnSlash_cons_ne ':' w (by decide)
            rw [hsp4] at hsp1
            have hs1 : s1 = ':' :: s2 := by
              injection hsp1 with h1 h2
              exact h1.symm
            rw [hsplit] at hsp2
            have hs0c : s0 = c :: s1 := by
              injection hsp2 with h1 _
            exact ⟨c, s2, by rw [hs0c, hs1], hcq⟩
        have hs0ne : s0 ≠ dotdot := by
          rcases hs0 with ⟨h0, _⟩ | ⟨c, s2, h0, _⟩
          · rw [h0]
            decide
          · rw [h0]
            intro hcon
            rw [show dotdot = ['.', '.'] from rfl] at hcon
            injection hcon with _ hcon
            injection hcon with hcon _
            exact absurd hcon (by decide)
        have hout := resolveStack_ne_head rest [s0] out (by simp) hrs
        have houtne : out ≠ [] := hout.1
        have houthead : out.head? = some s0 := by
          rw [hout.2]
          rfl
        have houtnd : ∀ x ∈ out, x ≠ dotdot := by
          refine resolveStack_not_dotdot rest [s0] out ?_ hrs
          intro x hx
          rw [List.mem_singleton.mp hx]
          exact hs0ne
        have houtns : ∀ x ∈ out, '/' ∉ x := by
          refine resolveStack_no_slash rest [s0] out ?_ ?_ hrs
          · intro x hx
            rw [List.mem_singleton.mp hx]
            exact splitOnSlash_no_slash q s0 (by rw [hsplit]; simp)
          · intro x hx
            exact splitOnSlash_no_slash q x (by rw [hsplit]; exact List.mem_cons_of_mem _ hx)
        have houtmid : ∀ x ∈ (out.drop 1).dropLast, x ≠ [] := by
          refine resolveStack_interior rest [s0] out (by simp) (by simp) ?_ hrs
          intro x hx
          have hrest : rest.dropLast = ((splitOnSlash q).drop 1).dropLast := by
            rw [hsplit]
            rfl
          rw [hrest] at hx
          exact (split_structure q hdf).1 x hx
        have hsplitp2 : splitOnSlash p2 = out := by
          rw [hp2]
          exact splitOnSlash_joinSlash out houtne houtns
        refine ⟨?_, ?_, ?_, ?_⟩
        · rw [hp2]
          exact dupFree_joinSlash out houtne houtns houtmid
        · intro _ s hs
          rw [hsplitp2] at hs
          exact houtnd s hs
        · intro hqslash
          obtain ⟨out2, hout2⟩ : ∃ out2, out = [] :: out2 := by
            rcases hs0 with ⟨h0, _⟩ | ⟨c, s2, h0, _⟩
            · cases out with
              | nil => exact absurd rfl houtne
              | cons o1 os =>
                refine ⟨os, ?_⟩
                have ho1 : o1 = s0 := by simpa using houthead
                rw [ho1, h0]
            · exfalso
              rcases hqslash with ⟨t, rfl⟩
              rw [splitOnSlash_cons_slash] at hsplit
              have hnil : s0 = [] := by
                injection hsplit with h1 _
                exact h1.symm
              rw [h0] at hnil
              simp at hnil
          cases out2 with
          | nil =>
            left
            rw [hp2, hout2]
            rfl
          | cons y ys =>
            right
            rw [hp2, hout2]
            exact ⟨joinSlash (y :: ys), rfl⟩
        · intro c w hqeq hcq
          obtain ⟨s2, hs02⟩ : ∃ s2, s0 = c :: ':' :: s2 := by
            rw [hqeq] at hsplit
            obtain ⟨sa, ssa, hspa, hspb⟩ := splitOnSlash_cons_ne c (':' :: w) hcq
            obtain ⟨sb, ssb, hspc, hspd⟩ := splitOnSlash_cons_ne ':' w (by decide)
            rw [hspd] at hspa
            have hsa : sa = ':' :: sb := by
              injection hspa with h1 h2
              exact h1.symm
            rw [hsplit] at hspb
            have hs0a : s0 = c :: sa := by
              injection hspb with h1 _
            exact ⟨sb, by rw [hs0a, hsa]⟩
          cases out with
          | nil => exact absurd rfl houtne
          | cons o1 os =>
            have ho1 : o1 = s0 := by simpa using houthead
            cases os with
            | nil =>
              refine ⟨s2, ?_⟩
              rw [hp2, ho1, hs02]
              rfl
            | cons y ys =>
              refine ⟨s2 ++ '/' :: joinSlash (y :: ys), ?_⟩
              rw [hp2, ho1, hs02]
              rfl
  · rw [if_neg hc] at h
    injection h with h
    subst h
    refine ⟨hdf, ?_, ?_, ?_⟩
    · intro hcon
      exact absurd hcon hc
    · intro ⟨t, ht⟩
      right
      exact ⟨t, ht⟩
    · intro c w hqeq hcq
      exact ⟨w, hqeq⟩

lemma normalizePath_slash (unc d : Bool) : normalizePath unc ['/'] d = .ok ['/'] := by
  rw [normalizePath_eq_exec]
  cases unc <;> cases d <;> decide

lemma startsWithDoubleSlash_iff (p : FsPath) :
    startsWithDoubleSlash p = true ↔ ∃ t, p = '/' :: '/' :: t := by
  rw [startsWithDoubleSlash.eq_def]
  split
  · rename_i t
    simp
  · rename_i hno
    simp only [Bool.false_eq_true, false_iff, not_exists]
    intro t heq
    subst heq
    exact hno t rfl

lemma isAbsolutePath_colon (c : Char) (w : FsPath) :
    isAbsolutePath (c :: ':' :: w) = true := by
  simp [isAbsolutePath]

/-- Idempotence of `_normalizePath` on nonempty results: if normalization of
`p` succeeds with a nonempty canonical path `r`, then normalizing `r` again
returns `r` unchanged. -/
lemma normalizePath_idem (unc d : Bool) (p r : FsPath)
    (h : normalizePath unc p d = .ok r) (hne : r ≠ []) :
    normalizePath unc r d = .ok r := by
  rw [normalizePath_eq_resolveStep] at h
  by_cases habs : isAbsolutePath p
  case neg =>
    rw [if_neg habs] at h
    exact absurd h (by simp)
  rw [if_pos habs] at h
  cases hstep : resolveStep (collapseSlashes p) with
  | error e =>
    rw [hstep] at h
    exact absurd h (by simp [Except.map])
  | ok p2 =>
    rw [hstep] at h
    have hr : (if (unc && startsWithDoubleSlash p) = true then
        '/' :: (if d = true then appendTrailingSlash p2 else p2)
        else (if d = true then appendTrailingSlash p2 else p2)) = r := by
      simp only [Except.map] at h
      injection h with h
    -- canonical-structure hypotheses for the collapsed input
    have hq : (∃ t, collapseSlashes p = '/' :: t) ∨
        (∃ c w, collapseSlashes p = c :: ':' :: w ∧ ¬c = '/') := by
      rcases isAbsolutePath_cases p habs with ⟨t, hpeq⟩ | ⟨c, w, hpeq, hcp⟩
      · obtain ⟨u, hu⟩ := collapseSlashes_head '/' t
        rw [hpeq]
        exact Or.inl ⟨u, hu⟩
      · obtain ⟨u, hu⟩ := collapseSlashes_colon c w hcp
        rw [hpeq]
        exact Or.inr ⟨c, u, hu, hcp⟩
    have hfacts := resolveStep_facts (collapseSlashes p) p2 (dupFree_collapseSlashes p) hq hstep
    obtain ⟨hdf2, hseg2, hslash2, hcolon2⟩ := hfacts
    -- the trailing-slash step either leaves p2 alone or appends one slash
    have hp3cases : (if d = true then appendTrailingSlash p2 else p2) = p2 ∨
        ((if d = true then appendTrailingSlash p2 else p2) = p2 ++ ['/'] ∧
          p2.getLast? ≠ some '/') := by
      by_cases hd : d = true
      · rw [if_pos hd, appendTrailingSlash]
        by_cases hl : (p2.getLast? == some '/') = true
        · rw [if_pos hl]
          exact Or.inl rfl
        · rw [if_neg hl]
          exact Or.inr ⟨rfl, by simpa using hl⟩
      · rw [if_neg hd]
        exact Or.inl rfl
    -- facts about p3
    have hdf3 : dupFree (if d = true then appendTrailingSlash p2 else p2) = true := by
      rcases hp3cases with h3 | ⟨h3, hl⟩
      · rw [h3]
        exact hdf2
      · rw [h3]
        exact dupFree_append p2 ['/'] hdf2 rfl (fun hcon _ => hl hcon)
    have hseg3 : containsDotDot (if d = true then appendTrailingSlash p2 else p2) = true →
        ∀ s ∈ splitOnSlash (if d = true then appendTrailingSlash p2 else p2), s ≠ dotdot := by
      rcases hp3cases with h3 | ⟨h3, _⟩
      · rw [h3]
        exact hseg2
      · rw [h3]
        intro hcdd s hs
        rw [containsDotDot_append_slash] at hcdd
        rw [splitOnSlash_append_slash] at hs
        rcases List.mem_append.mp hs with hs | hs
        · exact hseg2 hcdd s hs
        · rw [List.mem_singleton.mp hs]
          decide
    have hats3 : (if d = true then
        appendTrailingSlash (if d = true then appendTrailingSlash p2 else p2)
        else (if d = true then appendTrailingSlash p2 else p2)) =
        (if d = true then appendTrailingSlash p2 else p2) := by
      by_cases hd : d = true
      · rw [if_pos hd, if_pos hd]
        exact appendTrailingSlash_of_getLast _ (appendTrailingSlash_getLast p2)
      · rw [if_neg hd]
    -- case split on the UNC flag
    by_cases hU : (unc && startsWithDoubleSlash p) = true
    · -- UNC case: r = '/' :: p3, and p starts with two slashes
      rw [if_pos hU] at hr
      obtain ⟨hunc, hdsl⟩ : unc = true ∧ startsWithDoubleSlash p = true := by
        simpa using hU
      have hp2sl : p2 = [] ∨ ∃ t2, p2 = '/' :: t2 := by
        apply hslash2
        obtain ⟨t, hpeq⟩ := (startsWithDoubleSlash_iff p).mp hdsl
        rw [hpeq]
        exact collapseSlashes_head '/' ('/' :: t)
      have hp3sl : (if d = true then appendTrailingSlash p2 else p2) = [] ∨
          ∃ t3, (if d = true then appendTrailingSlash p2 else p2) = '/' :: t3 := by
        rcases hp2sl with hp2e | ⟨t2, hp2e⟩
        · subst hp2e
          by_cases hd : d = true
          · rw [if_pos hd]
            exact Or.inr ⟨[], rfl⟩
          · rw [if_neg hd]
            exact Or.inl rfl
        · right
          rcases hp3cases with h3 | ⟨h3, _⟩
          · rw [h3, hp2e]
            exact ⟨t2, rfl⟩
          · rw [h3, hp2e]
            exact ⟨t2 ++ ['/'], rfl⟩
      rcases hp3sl with hp3e | ⟨t3, hp3e⟩
      · -- r = ['/']
        rw [hp3e] at hr
        rw [← hr]
        exact normalizePath_slash unc d
      · -- r = '/' :: '/' :: t3
        have hrval : r = '/' :: '/' :: t3 := by
          rw [← hr, hp3e]
        rw [normalizePath_eq_resolveStep]
        have habs2 : isAbsolutePath r = true := by
          rw [hrval]
          simp [isAbsolutePath]
        rw [if_pos habs2]
        have hdsl2 : startsWithDoubleSlash r = true := by
          rw [hrval]
          exact (startsWithDoubleSlash_iff _).mpr ⟨t3, rfl⟩
        have hcoll2 : collapseSlashes r =
            (if d = true then appendTrailingSlash p2 else p2) := by
          rw [hrval]
          rw [collapseSlashes, if_pos (by simp)]
          rw [← hp3e]
          exact collapseSlashes_of_dupFree _ hdf3
        rw [hcoll2, resolveStep_self _ hseg3]
        simp only [Except.map, Except.ok.injEq]
        rw [hunc, hdsl2]
        simp only [Bool.and_self, if_pos]
        rw [hats3]
        exact hr
    · -- non-UNC case: r = p3
      rw [if_neg hU] at hr
      rw [normalizePath_eq_resolveStep]
      have habs2 : isAbsolutePath r = true := by
        rcases hq with ⟨t, hcp⟩ | ⟨c, w, hcp, hcne⟩
        · rcases hslash2 ⟨t, hcp⟩ with hp2e | ⟨t2, hp2e⟩
          · subst hp2e
            by_cases hd : d = true
            · rw [if_pos hd] at hr
              rw [← hr]
              decide
            · rw [if_neg hd] at hr
              exact absurd hr.symm hne
          · rcases hp3cases with h3 | ⟨h3, _⟩
            · rw [h3, hp2e] at hr
              rw [← hr]
              simp [isAbsolutePath]
            · rw [h3, hp2e] at hr
              rw [← hr]
              simp [isAbsolutePath]
        · obtain ⟨w2, hp2e⟩ := hcolon2 c w hcp hcne
          rcases hp3cases with h3 | ⟨h3, _⟩
          · rw [h3, hp2e] at hr
            rw [← hr]
            exact isAbsolutePath_colon c w2
          · rw [h3, hp2e] at hr
            rw [← hr]
            show isAbsolutePath (c :: ':' :: (w2 ++ ['/'])) = true
            exact isAbsolutePath_colon c _
      rw [if_pos habs2]
      have hdfr : dupFree r = true := by
        rw [← hr]
        exact hdf3
      have hdsl2 : startsWithDoubleSlash r = false :=
        dupFree_not_startsWithDoubleSlash r hdfr
      have hcoll2 : collapseSlashes r = r := collapseSlashes_of_dupFree r hdfr
      have hsegr : containsDotDot r = true → ∀ s ∈ splitOnSlash r, s ≠ dotdot := by
        rw [← hr]
        exact hseg3
      rw [hcoll2, resolveStep_self r hsegr]
      simp only [Except.map, Except.ok.injEq]
      rw [hdsl2]
      simp only [Bool.and_false, Bool.false_eq_true, if_false]
      rw [← hr]
      exact hats3

lemma getEntryForPath_eq_exec (fs : FileSystem) (isDirectory : Bool) (path : FsPath) :
    fs.getEntryForPath isDirectory path = fs.getEntryForPathExec isDirectory path := by
  unfold FileSystem.getEntryForPath FileSystem.getEntryForPathExec
  rw [normalizePath_eq_exec]

lemma find?_append_of_none {α : Type} (l1 l2 : List α) (f : α → Bool)
    (h : l1.find? f = none) : (l1 ++ l2).find? f = l2.find? f := by
  induction l1 with
  | nil => rfl
  | cons a t ih =>
    cases hfa : f a with
    | true => simp [List.find?_cons, hfa] at h
    | false =>
      simp only [List.find?_cons, hfa, cond_false] at h
      rw [List.cons_append, List.find?_cons, hfa]
      simp only [cond_false]
      exact ih h

lemma wq_ledger (tr : List WQEvent) :
    ∀ (s : WQState),
      ((tr.foldl wqStep s).invoked ++ (tr.foldl wqStep s).queue.map (fun r => r.id)) =
        s.invoked ++ s.queue.map (fun r => r.id) ++ wqEnqueued tr := by
  induction tr with
  | nil =>
    intro s
    simp [wqEnqueued]
  | cons ev tr ih =>
    intro s
    cases ev with
    | enqueue r =>
      rw [List.foldl_cons, ih]
      simp [wqStep, wqEnqueued]
    | complete =>
      rw [List.foldl_cons, ih]
      cases hq : s.queue with
      | nil => simp [wqStep, hq, wqEnqueued]
      | cons r rest => simp [wqStep, hq, wqEnqueued]

lemma wq_dispatched (tr : List WQEvent) :
    ∀ (s : WQState), s.headDispatched = !s.queue.isEmpty →
      (tr.foldl wqStep s).headDispatched = !(tr.foldl wqStep s).queue.isEmpty := by
  induction tr with
  | nil =>
    intro s h
    exact h
  | cons ev tr ih =>
    intro s h
    cases ev with
    | enqueue r =>
      rw [List.foldl_cons]
      refine ih _ ?_
      simp only [wqStep]
      cases hq : s.queue with
      | nil => simp [hq] at h; simp [h, hq]
      | cons a t => simp [hq] at h; simp [h, hq]
    | complete =>
      rw [List.foldl_cons]
      refine ih _ ?_
      simp only [wqStep]
      cases hq : s.queue with
      | nil => simpa [hq] using h
      | cons a t => simp [hq]

lemma wq_flush (n : Nat) :
    ∀ (s : WQState), s.queue.length = n →
      ((List.replicate n WQEvent.complete).foldl wqStep s).queue = [] ∧
      ((List.replicate n WQEvent.complete).foldl wqStep s).invoked =
        s.invoked ++ s.queue.map (fun r => r.id) := by
  induction n with
  | zero =>
    intro s hlen
    have hq : s.queue = [] := List.length_eq_zero.mp hlen
    simp [hq]
  | succ n ih =>
    intro s hlen
    cases hq : s.queue with
    | nil => simp [hq] at hlen
    | cons r rest =>
      rw [List.replicate_succ, List.foldl_cons]
      have hstep : wqStep s WQEvent.complete =
          ⟨rest, !rest.isEmpty, s.invoked ++ [r.id]⟩ := by
        simp [wqStep, hq]
      rw [hstep]
      have hlen2 : rest.length = n := by
        simp [hq] at hlen
        exact hlen
      obtain ⟨h1, h2⟩ := ih ⟨rest, !rest.isEmpty, s.invoked ++ [r.id]⟩ hlen2
      exact ⟨h1, by rw [h2]; simp [hq]⟩

/-- Claim C10: `close()` invokes the backend's `unwatchAll` (an effect on the
impl, outside the core state) and clears the file index, and modifies nothing
else in the core state: the watched-root registry (so previously registered
watched roots remain registered, still marked active), the pending
watch-request queue, the queued external changes and `activeChangeCount` are
all unchanged by `close()`. -/
theorem C10_close_frame (fs : FileSystem) :
    fs.close.index = [] ∧
    fs.close.watchedRoots = fs.watchedRoots ∧
    fs.close.watchRequests = fs.watchRequests ∧
    fs.close.externalChanges = fs.externalChanges ∧
    fs.close.activeChangeCount = fs.activeChangeCount ∧
    fs.close.impl = fs.impl ∧
    fs.close.events = fs.events ∧
    fs.close.nextId = fs.nextId :=
  ⟨rfl, rfl, rfl, rfl, rfl, rfl, rfl, rfl⟩

/-- Claim C9: normalizing "/" as a file and as a directory both yield "/"
(the trailing-slash step adds nothing), so `getFileForPath("/")` and
`getDirectoryForPath("/")` intern under the same index key and return the
identical entry object: whichever call happens first fixes the entry's
constructor (recorded in `isFile`), and the later call of the other kind
returns that same object rather than a handle of the requested kind. -/
theorem C9_root_interning :
    normalizePath false "/".toList false = .ok "/".toList ∧
    normalizePath false "/".toList true = .ok "/".toList ∧
    (∃ fs1 e, fsEmpty.getFileForPath "/".toList = .ok (fs1, e) ∧
      e.isFile = true ∧ e.fullPath = "/".toList ∧
      fs1.getDirectoryForPath "/".toList = .ok (fs1, e)) ∧
    (∃ fs1 e, fsEmpty.getDirectoryForPath "/".toList = .ok (fs1, e) ∧
      e.isFile = false ∧ e.fullPath = "/".toList ∧
      fs1.getFileForPath "/".toList = .ok (fs1, e)) := by
  refine ⟨by decide, by decide, ⟨_, _, rfl, rfl, rfl, rfl⟩, ⟨_, _, rfl, rfl, rfl, rfl⟩⟩

/-- Claim C5: the `..` resolution scans the segments from index 1 upward and a
".." segment reached at index i < 2 — that is, at index 1, just after the
leading root segment — raises InvalidPath synchronously, whatever the
remaining segments are; `getFileForPath("/../a")` therefore fails with
InvalidPath, while a resolvable ".." gives "/a/b/../c" → "/a/c", and the
rewind-by-2 after a splice lets "/a/b/../../c" resolve to "/c". -/
theorem C5_dotdot_scan :
    (∀ (s0 : FsPath) (rest : List FsPath),
      spliceLoop (s0 :: dotdot :: rest) 1 = .error .invalidPath) ∧
    fsEmpty.getFileForPath "/../a".toList = .error .invalidPath ∧
    normalizePath false "/a/b/../c".toList false = .ok "/a/c".toList ∧
    normalizePath false "/a/b/../../c".toList false = .ok "/c".toList := by
  refine ⟨?_, ?_, ?_, ?_⟩
  · intro s0 rest
    exact spliceLoop_of_dotdot_small _ _ (by simp) (by omega)
  · rw [FileSystem.getFileForPath, getEntryForPath_eq_exec]
    rfl
  · rw [normalizePath_eq_exec]
    decide
  · rw [normalizePath_eq_exec]
    decide

/-- Claim C4, counterexample: normalization is not idempotent exactly as
stated.  For p = "/a/.." as a file path, normalize succeeds and returns the
empty string (the splice erases every segment), and renormalizing that result
does not return it — it throws AbsolutePathRequired. -/
theorem C4_idem_counterexample :
    normalizePath false "/a/..".toList false = .ok [] ∧
    normalizePath false [] false = .error .absolutePathRequired ∧
    "".toList = ([] : FsPath) := by
  refine ⟨?_, by decide, by decide⟩
  rw [normalizePath_eq_exec]
  decide

/-- Claim C4 (amended): for every path p on which normalize(p, d) succeeds
with a *nonempty* result (including UNC inputs when the backend declares
normalizeUNCPaths), normalize(normalize(p, d), d) equals normalize(p, d).
The empty result arises for file paths that resolve to the filesystem root,
such as "/a/.."; renormalizing "" fails with AbsolutePathRequired. -/
theorem C4_normalize_idempotent (unc d : Bool) (p r : FsPath)
    (h : normalizePath unc p d = .ok r) (hne : r ≠ []) :
    normalizePath unc r d = .ok r :=
  normalizePath_idem unc d p r h hne

/-- Witness for the amended C4 at p = "/a/b/../c", d = false, no UNC. -/
theorem C4_normalize_idempotent_witness :
    normalizePath false "/a/c".toList false = .ok "/a/c".toList :=
  C4_normalize_idempotent false false "/a/b/../c".toList "/a/c".toList
    (by rw [normalizePath_eq_exec]; decide) (by decide)

/-- Claim C1, divergence witness (code bug): the claim — and spec 4.4 — say
that after watch("/proj/") succeeds, watch("/") must fail with
ChildAlreadyWatched and register nothing.  In the source (src 777-787)
`watchingChildRoot` is the Boolean returned by Array.prototype.some and the
guard reads `.active` off that Boolean, which is undefined in JavaScript, so
the branch never fires: watch("/") succeeds with a null error and "/" is
registered as an active watched root alongside "/proj/". -/
theorem C1_child_check_never_fires :
    (FileSystem.watch fsOverlap projDirEntry trueFilter).2 = none ∧
    ((FileSystem.watch fsOverlap projDirEntry trueFilter).1.watchedRoots.map
      (fun kv => (kv.1, kv.2.active))) = [("/proj/".toList, true)] ∧
    (FileSystem.watch (FileSystem.watch fsOverlap projDirEntry trueFilter).1
      rootDirEntry trueFilter).2 = none ∧
    ((FileSystem.watch (FileSystem.watch fsOverlap projDirEntry trueFilter).1
      rootDirEntry trueFilter).1.watchedRoots.map
      (fun kv => (kv.1, kv.2.active))) = [("/proj/".toList, true), ("/".toList, true)] := by
  refine ⟨by decide, by decide, by decide, by decide⟩

lemma watch_snd (fs : FileSystem) (entry : Entry) (filter : FsPath → FsPath → Bool) :
    (FileSystem.watch fs entry filter).2 =
      if ((fs.findWatchedRootForPath entry.fullPath).map (fun wr => wr.active)).getD false then
        some parentAlreadyWatchedMsg
      else fs.impl.watchPath entry.fullPath := by
  rw [FileSystem.watch]
  by_cases hcond :
      ((fs.findWatchedRootForPath entry.fullPath).map (fun wr => wr.active)).getD false = true
  · simp only [hcond, if_true]
  · simp only [hcond, Bool.false_eq_true, if_false, if_neg hcond]
    simp only [FileSystem.watchEntry, FileSystem.watchOrUnwatchEntry, beq_self_eq_true,
      if_true]
    cases hw : fs.impl.watchPath entry.fullPath with
    | none => rfl
    | some e => rfl

/-- Claim C6, counterexample: with "/a/" already an active watched root,
watch("/a/") again fails with ParentAlreadyWatched although no active watched
root's path is a *strict* prefix of "/a/" — `_findWatchedRootForPath` uses
`fullPath.indexOf(watchedPath) === 0` (src 204-215), which also matches a
root whose path exactly equals the new path, so the claim's "exactly when
some active watched root's path is a strict prefix" is false. -/
theorem C6_strict_prefix_counterexample :
    (fsWatchedA.watchedRoots.map (fun kv => (kv.1, kv.2.active))) =
      [("/a/".toList, true)] ∧
    (FileSystem.watch fsWatchedA dirAEntry trueFilter).2 = some parentAlreadyWatchedMsg ∧
    (∀ kv ∈ [("/a/".toList, true)],
      ¬(kv.2 = true ∧ kv.1.isPrefixOf "/a/".toList = true ∧ kv.1 ≠ "/a/".toList)) := by
  refine ⟨by decide, by decide, by decide⟩

/-- Claim C6 (amended): watch(entry, filter, cb) fails with the
ParentAlreadyWatched error exactly when the first existing watched root, in
registry insertion order, whose path is a (non-strict) prefix of
entry.fullPath exists and is active.  In particular an active watched root
whose path exactly equals entry.fullPath also triggers ParentAlreadyWatched —
exact equality is not excluded by the source's prefix check.  (The
hypothesis rules out a backend that itself fails with the
ParentAlreadyWatched message string.) -/
theorem C6_parent_check (fs : FileSystem) (entry : Entry)
    (filter : FsPath → FsPath → Bool)
    (hbe : fs.impl.watchPath entry.fullPath ≠ some parentAlreadyWatchedMsg) :
    (FileSystem.watch fs entry filter).2 = some parentAlreadyWatchedMsg ↔
      ∃ wr, fs.findWatchedRootForPath entry.fullPath = some wr ∧ wr.active = true := by
  rw [watch_snd]
  cases hfind : fs.findWatchedRootForPath entry.fullPath with
  | none =>
    simp only [Option.map_none', Option.getD_none, Bool.false_eq_true, if_false]
    constructor
    · intro hres
      exact absurd hres hbe
    · rintro ⟨wr, hwr, _⟩
      exact Option.noConfusion hwr
  | some wr =>
    simp only [Option.map_some', Option.getD_some]
    by_cases hact : wr.active = true
    · rw [if_pos hact]
      exact ⟨fun _ => ⟨wr, rfl, hact⟩, fun _ => rfl⟩
    · rw [if_neg hact]
      constructor
      · intro hres
        exact absurd hres hbe
      · rintro ⟨wr2, hwr2, hact2⟩
        injection hwr2 with hww
        rw [← hww] at hact2
        exact absurd hact2 hact

/-- Witness for the amended C6: the double-watch state, where the active root
"/a/" is found (by exact match) for a second watch of "/a/". -/
theorem C6_parent_check_witness :
    ((FileSystem.watch fsWatchedA dirAEntry trueFilter).2 = some parentAlreadyWatchedMsg ↔
      ∃ wr, fsWatchedA.findWatchedRootForPath dirAEntry.fullPath = some wr ∧
        wr.active = true) :=
  C6_parent_check fsWatchedA dirAEntry trueFilter (by decide)

lemma find?_filter_out {α : Type} (l : List α) (f : α → Bool) :
    (l.filter (fun x => !(f x))).find? f = none := by
  rw [List.find?_eq_none]
  intro x hx
  have hmem := (List.mem_filter.mp hx).2
  simp only [Bool.not_eq_true'] at hmem
  simp [hmem]

/-- Claim C7: for a currently watched root, unwatch(entry, cb) removes the
root from the watched-roots registry and removes from the index every entry
whose fullPath begins with entry.fullPath, regardless of whether the backend
unwatch succeeded or failed (the conclusions hold for an arbitrary backend
result); the backend error, if any, is then passed to the callback. -/
theorem C7_unwatch_prunes (fs : FileSystem) (entry : Entry) (wr : WatchedRoot)
    (hwr : fs.lookupWatchedRoot entry.fullPath = some wr) :
    (∀ e ∈ (fs.unwatch entry).1.index, entry.fullPath.isPrefixOf e.fullPath = false) ∧
    (fs.unwatch entry).1.lookupWatchedRoot entry.fullPath = none ∧
    (fs.unwatch entry).2 =
      (if entry.id == wr.entry.id then fs.impl.unwatchPath entry.fullPath else none) := by
  have hun : fs.unwatch entry =
      (let fs1 := setRootActive fs entry.fullPath false
       let res := fs1.unwatchEntry entry {wr with active := false}
       let fs2 := {res.1 with
         watchedRoots := removeWatchedRoot res.1.watchedRoots entry.fullPath}
       let idx := fs2.index.filter (fun child => !(entry.fullPath.isPrefixOf child.fullPath))
       ({fs2 with index := idx}, res.2)) := by
    rw [FileSystem.unwatch, hwr]
  rw [hun]
  refine ⟨?_, ?_, ?_⟩
  · intro e he
    have := (List.mem_filter.mp he).2
    simpa using this
  · show (List.find? _ (removeWatchedRoot _ entry.fullPath)).map _ = none
    rw [removeWatchedRoot, find?_filter_out]
    rfl
  · show ((setRootActive fs entry.fullPath false).unwatchEntry entry
      {wr with active := false}).2 = _
    rw [FileSystem.unwatchEntry, FileSystem.watchOrUnwatchEntry]
    by_cases hid : (entry.id == wr.entry.id) = true
    · rw [if_pos hid, if_pos hid]
      rfl
    · rw [if_neg hid, if_neg hid]

/-- Witness for C7: unwatching the active root "/r/" over a backend whose
unwatch fails with "EIO": the child and the root itself are pruned from the
index anyway, the registry entry is gone, and the error is surfaced. -/
theorem C7_unwatch_prunes_witness :
    (∀ e ∈ (fsUnwatch.unwatch rootREntry).1.index,
      rootREntry.fullPath.isPrefixOf e.fullPath = false) ∧
    (fsUnwatch.unwatch rootREntry).1.lookupWatchedRoot rootREntry.fullPath = none ∧
    (fsUnwatch.unwatch rootREntry).2 =
      (if rootREntry.id == rootREntry.id then
        fsUnwatch.impl.unwatchPath rootREntry.fullPath else none) :=
  C7_unwatch_prunes fsUnwatch rootREntry ⟨rootREntry, trueFilter, true⟩ rfl

lemma getEntryForPath_norm_ok (fs : FileSystem) (isDir : Bool) (p np : FsPath)
    (hn : normalizePath fs.impl.normalizeUNCPaths p isDir = .ok np) :
    fs.getEntryForPath isDir p =
      (match fs.getEntry np with
       | some entry => .ok (fs, entry)
       | none =>
         .ok ({fs with
                 index := fs.index ++ [(⟨fs.nextId, np, !isDir, none, none⟩ : Entry)],
                 nextId := fs.nextId + 1},
           (⟨fs.nextId, np, !isDir, none, none⟩ : Entry))) := by
  rw [FileSystem.getEntryForPath, hn]

/-- Claim C3: for any two paths p1, p2 with normalize(p1) = normalize(p2)
(same directory flag, same backend), the handle returned by a
getFileForPath/getDirectoryForPath call for p2 is identity-equal to the one
previously returned for p1 — the very same entry object, with the state left
unchanged by the second call; in particular getFileForPath("/a//b/../b/c.txt")
and getFileForPath("/a/b/c.txt") return the same handle with fullPath
"/a/b/c.txt". -/
theorem C3_handle_identity (fs fs1 : FileSystem) (isDir : Bool) (p1 p2 : FsPath)
    (e1 : Entry)
    (hnorm : normalizePath fs.impl.normalizeUNCPaths p1 isDir =
      normalizePath fs.impl.normalizeUNCPaths p2 isDir)
    (h1 : fs.getEntryForPath isDir p1 = .ok (fs1, e1)) :
    fs1.getEntryForPath isDir p2 = .ok (fs1, e1) ∧
    (∃ fsx e, fsEmpty.getFileForPath "/a//b/../b/c.txt".toList = .ok (fsx, e) ∧
      fsx.getFileForPath "/a/b/c.txt".toList = .ok (fsx, e) ∧
      e.fullPath = "/a/b/c.txt".toList) := by
  constructor
  · cases hn1 : normalizePath fs.impl.normalizeUNCPaths p1 isDir with
    | error e =>
      rw [FileSystem.getEntryForPath, hn1] at h1
      exact absurd h1 (by simp)
    | ok np =>
      rw [getEntryForPath_norm_ok fs isDir p1 np hn1] at h1
      cases hfind : fs.getEntry np with
      | some entry =>
        rw [hfind] at h1
        injection h1 with h1
        injection h1 with ha hb
        subst ha
        subst hb
        rw [getEntryForPath_norm_ok fs isDir p2 np (by rw [← hnorm, hn1]), hfind]
      | none =>
        rw [hfind] at h1
        injection h1 with h1
        injection h1 with ha hb
        subst ha
        subst hb
        rw [getEntryForPath_norm_ok _ isDir p2 np
          (by show normalizePath fs.impl.normalizeUNCPaths p2 isDir = .ok np
              rw [← hnorm, hn1])]
        have hfind2 : ({fs with
            index := fs.index ++ [(⟨fs.nextId, np, !isDir, none, none⟩ : Entry)],
            nextId := fs.nextId + 1} : FileSystem).getEntry np =
            some (⟨fs.nextId, np, !isDir, none, none⟩ : Entry) := by
          show (fs.index ++ [(⟨fs.nextId, np, !isDir, none, none⟩ : Entry)]).find?
            (fun e => e.fullPath == np) = _
          rw [find?_append_of_none _ _ _
            (show fs.index.find? (fun e => e.fullPath == np) = none from hfind)]
          simp [List.find?_cons]
        rw [hfind2]
  · refine ⟨{fsEmpty with
        index := [(⟨0, "/a/b/c.txt".toList, true, none, none⟩ : Entry)],
        nextId := 1},
      (⟨0, "/a/b/c.txt".toList, true, none, none⟩ : Entry), ?_, ?_, ?_⟩
    · rw [FileSystem.getFileForPath, getEntryForPath_eq_exec]
      rfl
    · rw [FileSystem.getFileForPath, getEntryForPath_eq_exec]
      rfl
    · rfl

theorem C3_handle_identity_witness :
    ({fsEmpty with
        index := [(⟨0, "/a/b/c.txt".toList, true, none, none⟩ : Entry)],
        nextId := 1} : FileSystem).getEntryForPath false "/a/b/c.txt".toList =
      .ok ({fsEmpty with
        index := [(⟨0, "/a/b/c.txt".toList, true, none, none⟩ : Entry)],
        nextId := 1},
        (⟨0, "/a/b/c.txt".toList, true, none, none⟩ : Entry)) ∧
    (∃ fsx e, fsEmpty.getFileForPath "/a//b/../b/c.txt".toList = .ok (fsx, e) ∧
      fsx.getFileForPath "/a/b/c.txt".toList = .ok (fsx, e) ∧
      e.fullPath = "/a/b/c.txt".toList) :=
  C3_handle_identity fsEmpty _ false "/a/b/c.txt".toList "/a/b/c.txt".toList _
    rfl (by rw [getEntryForPath_eq_exec]; rfl)

/-- Claim C8: the watch-request queue (src 152-185) is strictly serial and in
submission order.  For every event trace from the empty initial queue:
the user callbacks invoked so far followed by the still-pending requests are
exactly the enqueued ids in submission order; the head is dispatched exactly
when the queue is nonempty (so at most the head is ever in flight); an
enqueue pushes at the tail and dispatches only when the queue was previously
empty (src 182); a completion pops the head, records its callback as invoked
regardless of `cbThrows` — the try/finally at src 159-165 — and dispatches
the next request; and completing every pending request drains the queue with
all submitted callbacks invoked in order, also when an earlier callback
threw, as the concrete two-request trace with a throwing first callback
shows. -/
theorem C8_serial_queue :
    (∀ tr : List WQEvent,
      (wqRun tr).invoked ++ (wqRun tr).queue.map (fun r => r.id) = wqEnqueued tr) ∧
    (∀ tr : List WQEvent,
      (wqRun tr).headDispatched = !(wqRun tr).queue.isEmpty) ∧
    (∀ (s : WQState) (r : WatchRequest),
      wqStep s (.enqueue r) =
        {s with queue := s.queue ++ [r],
                headDispatched := s.headDispatched || s.queue.isEmpty}) ∧
    (∀ (q : List WatchRequest) (r : WatchRequest) (b : Bool) (inv : List Nat),
      wqStep ⟨r :: q, b, inv⟩ .complete = ⟨q, !q.isEmpty, inv ++ [r.id]⟩) ∧
    (∀ tr : List WQEvent,
      (wqRun (tr ++ List.replicate (wqRun tr).queue.length WQEvent.complete)).queue
        = [] ∧
      (wqRun (tr ++ List.replicate (wqRun tr).queue.length WQEvent.complete)).invoked
        = wqEnqueued tr) ∧
    wqRun [.enqueue ⟨1, true⟩, .enqueue ⟨2, false⟩, .complete, .complete]
      = ⟨[], false, [1, 2]⟩ := by
  refine ⟨?_, ?_, ?_, ?_, ?_, by decide⟩
  · intro tr
    have h := wq_ledger tr wqInit
    simpa [wqRun, wqInit] using h
  · intro tr
    exact wq_dispatched tr wqInit rfl
  · intro s r
    rfl
  · intro q r b inv
    rfl
  · intro tr
    have hledger := wq_ledger tr wqInit
    obtain ⟨h1, h2⟩ := wq_flush (wqRun tr).queue.length (wqRun tr) rfl
    simp only [wqRun, List.foldl_append] at h1 h2 ⊢
    refine ⟨h1, ?_⟩
    rw [h2]
    simpa [wqRun, wqInit] using hledger

lemma handleExternalChange_eq_exec (fs : FileSystem) (path? : Option FsPath)
    (stat : Option FileSystemStats) :
    fs.handleExternalChange path? stat = fs.handleExternalChangeExec path? stat := by
  unfold FileSystem.handleExternalChange FileSystem.handleExternalChangeExec
  cases path? with
  | none => rfl
  | some path => simp only [normalizePath_eq_exec]

lemma triggerLoop_eq_exec : ∀ (fs : FileSystem) (cs : List ExternalChange),
    triggerLoop fs cs = triggerLoopExec fs cs := by
  intro fs cs
  induction cs generalizing fs with
  | nil => rfl
  | cons c rest ih =>
    rw [triggerLoop, triggerLoopExec, handleExternalChange_eq_exec]
    cases fs.handleExternalChangeExec c.path c.stat with
    | error e => rfl
    | ok fs1 => exact ih fs1

/-- Claim C2: while `activeChangeCount` is positive, `_enqueueExternalChange`
only appends to the external-change queue — no `handleExternalChange` runs and
no event fires; when `_endChange` brings the count from 1 to exactly 0, the
queued changes are each handed to `handleExternalChange` in arrival order
(the `triggerLoop` fold) and the queue is emptied; when the count is already
0 at enqueue time the queue (ending in the new change) is drained immediately.
In the concrete deferral scenario, `beginChange` followed by an external
change for the indexed file `/p/f.txt` fires nothing, and the subsequent
`endChange` fires exactly one `change(entry)` event for that file. -/
theorem C2_change_coordinator (fs : FileSystem) (p? : Option FsPath)
    (st : Option FileSystemStats) :
    (0 < fs.activeChangeCount →
      fs.enqueueExternalChange p? st =
        .ok {fs with externalChanges := fs.externalChanges ++ [⟨p?, st⟩]}) ∧
    (fs.activeChangeCount = 1 →
      fs.endChange =
        (triggerLoop {fs with activeChangeCount := 0} fs.externalChanges).map
          (fun fs1 => {fs1 with externalChanges := []})) ∧
    (fs.activeChangeCount = 0 →
      fs.enqueueExternalChange p? st =
        (triggerLoop {fs with externalChanges := fs.externalChanges ++ [⟨p?, st⟩]}
            (fs.externalChanges ++ [⟨p?, st⟩])).map
          (fun fs1 => {fs1 with externalChanges := []})) ∧
    (∃ fs2 fs3,
      fsDeferred.beginChange.enqueueExternalChange
          (some "/p/f.txt".toList) (some ⟨5⟩) = .ok fs2 ∧
      fs2.events = [] ∧
      fs2.externalChanges = [⟨some "/p/f.txt".toList, some ⟨5⟩⟩] ∧
      fs2.endChange = .ok fs3 ∧
      fs3.events = [FSEvent.change (some 0) none none] ∧
      fs3.externalChanges = []) := by
  refine ⟨?_, ?_, ?_, ?_⟩
  · intro h
    have hne : fs.activeChangeCount ≠ 0 := by omega
    simp [FileSystem.enqueueExternalChange, hne]
  · intro h
    simp [FileSystem.endChange, FileSystem.triggerExternalChangesNow, h]
  · intro h
    simp [FileSystem.enqueueExternalChange, FileSystem.triggerExternalChangesNow, h]
  · refine ⟨{fsDeferred with
        activeChangeCount := 1,
        externalChanges := [⟨some "/p/f.txt".toList, some ⟨5⟩⟩]},
      {fsDeferred with
        index := [⟨0, "/p/f.txt".toList, true, some ⟨5⟩, none⟩],
        activeChangeCount := 0,
        events := [FSEvent.change (some 0) none none]},
      rfl, rfl, rfl, ?_, rfl, rfl⟩
    rw [show ({fsDeferred with
          activeChangeCount := 1,
          externalChanges := [⟨some "/p/f.txt".toList, some ⟨5⟩⟩]} : FileSystem).endChange
        = (triggerLoop {fsDeferred with
              activeChangeCount := 0,
              externalChanges := [(⟨some "/p/f.txt".toList, some ⟨5⟩⟩ : ExternalChange)]}
            [(⟨some "/p/f.txt".toList, some ⟨5⟩⟩ : ExternalChange)]).map
          (fun fs1 => {fs1 with externalChanges := []}) from rfl,
      triggerLoop_eq_exec]
    rfl

theorem C2_change_coordinator_witness :
    (fsDeferred.beginChange.enqueueExternalChange (some "/p/f.txt".toList) (some ⟨5⟩) =
        .ok {fsDeferred.beginChange with
          externalChanges := fsDeferred.beginChange.externalChanges ++
            [⟨some "/p/f.txt".toList, some ⟨5⟩⟩]}) ∧
    (fsDeferred.beginChange.endChange =
        (triggerLoop {fsDeferred.beginChange with activeChangeCount := 0}
            fsDeferred.beginChange.externalChanges).map
          (fun fs1 => {fs1 with externalChanges := []})) ∧
    (fsDeferred.enqueueExternalChange (some "/p/f.txt".toList) (some ⟨5⟩) =
        (triggerLoop {fsDeferred with
              externalChanges := fsDeferred.externalChanges ++
                [⟨some "/p/f.txt".toList, some ⟨5⟩⟩]}
            (fsDeferred.externalChanges ++ [⟨some "/p/f.txt".toList, some ⟨5⟩⟩])).map
          (fun fs1 => {fs1 with externalChanges := []})) :=
  ⟨(C2_change_coordinator fsDeferred.beginChange (some "/p/f.txt".toList)
      (some ⟨5⟩)).1 (by decide),
   (C2_change_coordinator fsDeferred.beginChange (some "/p/f.txt".toList)
      (some ⟨5⟩)).2.1 (by decide),
   (C2_change_coordinator fsDeferred (some "/p/f.txt".toList)
      (some ⟨5⟩)).2.2.1 (by decide)⟩
